import Mathlib

/-!
# Verification of the Butterfly pipeline (lexer → parser → compiler → VM)

Shallow embedding of the Go sources:
* `lexer/lexer.go`, `lexer/tokentype.go` — tokenizer,
* the parser file (`package parser`) — recursive-descent additive parser,
* `ast/ast.go` — expression tree,
* `compiler/compiler.go` + the bytecode file (`package compiler`) — compiler,
* the VM file (`package vm`) — stack machine.

Go slices/strings are modelled as `List`s, Go `int64` as `Int` with explicit
wraparound where results are produced, Go `interface{}` runtime values as
`GoVal`, runtime panics as explicit `panicked` outcomes, and returned Go
`error`s as explicit error outcomes.  Loops are modelled with explicit fuel;
every wrapper supplies a fuel bound that the loop can never exhaust (each
iteration strictly advances a position that the loop bounds).
-/

namespace Butterfly

/-- A Go `interface{}` runtime value as used by this program: either the nil
interface or an `int64` (the only value kinds the pipeline ever stores). -/
inductive GoVal where
  | nil : GoVal
  | int (z : Int) : GoVal
deriving DecidableEq, Repr

/-- Two's-complement wraparound into the `int64` range, i.e. reduction
mod 2^64 into `[-2^63, 2^63)`. -/
def wrap64 (z : Int) : Int := (z + 2 ^ 63) % 2 ^ 64 - 2 ^ 63

/-- Go `int64` addition (native wraparound). -/
def i64add (a b : Int) : Int := wrap64 (a + b)

/-- Go `int64` subtraction (native wraparound). -/
def i64sub (a b : Int) : Int := wrap64 (a - b)

/-! ## Character classes

The Go lexer walks the input byte by byte (`rune(l.input[l.pos])`) and
classifies with `unicode.IsSpace/IsDigit/IsLetter`.  We model the input as a
list of characters and the classifiers on the ASCII range (the range every
claim exercises); `'\x00'` plays the role of Go's `0` end marker. -/

/-- `unicode.IsSpace` on the ASCII range: space, \t, \n, \v, \f, \r. -/
def isGoSpace (c : Char) : Prop :=
  c = ' ' ∨ c = '\t' ∨ c = '\n' ∨ c = '\x0b' ∨ c = '\x0c' ∨ c = '\r'

instance (c : Char) : Decidable (isGoSpace c) := by unfold isGoSpace; infer_instance

/-- `unicode.IsDigit` on the ASCII range: `'0'..'9'`. -/
def isGoDigit (c : Char) : Prop := '0' ≤ c ∧ c ≤ '9'

instance (c : Char) : Decidable (isGoDigit c) := by unfold isGoDigit; infer_instance

/-- `unicode.IsLetter` on the ASCII range: `'a'..'z'`, `'A'..'Z'`. -/
def isGoLetter (c : Char) : Prop :=
  ('a' ≤ c ∧ c ≤ 'z') ∨ ('A' ≤ c ∧ c ≤ 'Z')

instance (c : Char) : Decidable (isGoLetter c) := by unfold isGoLetter; infer_instance

/-! ## Token kinds (`lexer/tokentype.go`) -/

/-- `TokenType`, the closed enumeration of `lexer/tokentype.go`. -/
inductive TokenType where
  | PUBLIC | CLASS | STATIC | VOID | MAIN | CHAR | INT | PRINTF | SCANF
  | SWITCH | CASE | DEFAULT | FOR | IF | ELSE | WHILE | DO | RETURN
  | BREAK | CONTINUE
  | IDENTIFIER | STRING | CharConst | NUMBER
  | ASSIGN | PLUS | MINUS | MULTIPLY | DIVIDE | LESS | LessEqual
  | GREAT | GreatEqual | NOTEQ | NOT | EQUAL
  | COMMA | SEMICOLON | COLON | LeftParen | RightParen | LeftBrace
  | RightBrace | LeftBrack | RightBrack
  | EOF
deriving DecidableEq, Repr

/-- A lexical token (`Token` of the lexer package): kind, matched text,
line and column. -/
structure Token where
  typ : TokenType
  value : String
  line : Nat
  column : Nat
deriving DecidableEq, Repr

/-- `reverseKeywords`, the keyword table of `lexer/lexer.go`. -/
def reverseKeywords : List (String × TokenType) :=
  [("public", .PUBLIC), ("class", .CLASS), ("static", .STATIC),
   ("void", .VOID), ("main", .MAIN), ("char", .CHAR), ("int", .INT),
   ("printf", .PRINTF), ("scanf", .SCANF), ("switch", .SWITCH),
   ("case", .CASE), ("default", .DEFAULT), ("for", .FOR), ("if", .IF),
   ("else", .ELSE), ("while", .WHILE), ("do", .DO), ("return", .RETURN),
   ("break", .BREAK), ("continue", .CONTINUE)]

/-! ## Go `strconv.ParseInt(s, 0, 64)`

The parser converts literal text with base argument 0, so prefix detection
(`0b`/`0o`/`0x`/legacy leading `0` = octal) and underscore tolerance are part
of the observable behaviour and are modelled faithfully.  `none` stands for
any non-nil `error` (syntax or range) — the Go parser only tests `err != nil`. -/

/-- Go `strconv`'s `lower(c) = c | ('x'-'X')`. -/
def lowerCh (c : Char) : Char := Char.ofNat (c.toNat ||| 32)

/-- The digit-sanity walk of `strconv.underscoreOK`, after sign and base
prefix have been handled; `saw` is the previous-character class marker
(`'^'` start, `'0'` digit, `'_'` underscore, `'!'` other). -/
def underscoreOKLoop (hex : Bool) : Char → List Char → Bool
  | saw, [] => saw ≠ '_'
  | saw, c :: rest =>
    if ('0' ≤ c ∧ c ≤ '9') ∨ (hex ∧ 'a' ≤ lowerCh c ∧ lowerCh c ≤ 'f') then
      underscoreOKLoop hex '0' rest
    else if c = '_' then
      if saw ≠ '0' then false else underscoreOKLoop hex '_' rest
    else if saw = '_' then false
    else underscoreOKLoop hex '!' rest

/-- `strconv.underscoreOK s`: underscores appear only between digits (or
after a base prefix). -/
def underscoreOK (s : List Char) : Bool :=
  let s1 := match s with
    | c :: rest => if c = '-' ∨ c = '+' then rest else s
    | [] => s
  match s1 with
  | c0 :: c1 :: rest =>
    if c0 = '0' ∧ (lowerCh c1 = 'b' ∨ lowerCh c1 = 'o' ∨ lowerCh c1 = 'x') then
      underscoreOKLoop (lowerCh c1 = 'x') '0' rest
    else underscoreOKLoop false '^' s1
  | _ => underscoreOKLoop false '^' s1

/-- The digit-accumulation loop of `strconv.ParseUint` (with `base0 = true`,
`bitSize = 64`): accumulates `n`, tracks whether an underscore was skipped,
fails (`none`) on a bad digit or on overflow past `2^64 - 1`. -/
def parseUintDigits (base : Nat) : Nat → Bool → List Char → Option (Nat × Bool)
  | n, us, [] => some (n, us)
  | n, us, c :: rest =>
    if c = '_' then parseUintDigits base n true rest
    else
      let d? : Option Nat :=
        if '0' ≤ c ∧ c ≤ '9' then some (c.toNat - '0'.toNat)
        else if 'a' ≤ lowerCh c ∧ lowerCh c ≤ 'z' then
          some ((lowerCh c).toNat - 'a'.toNat + 10)
        else none
      match d? with
      | none => none
      | some d =>
        if base ≤ d then none
        else if (2 ^ 64 - 1) / base + 1 ≤ n then none
        else
          let n1 := n * base + d
          if 2 ^ 64 - 1 < n1 then none else parseUintDigits base n1 us rest

/-- Go `strconv.ParseUint(s, 0, 64)`; `none` for any error. -/
def goParseUint (s : List Char) : Option Nat :=
  match s with
  | [] => none
  | _ =>
    let p : Nat × List Char :=
      match s with
      | '0' :: c1 :: c2 :: rest =>
        if lowerCh c1 = 'b' then (2, c2 :: rest)
        else if lowerCh c1 = 'o' then (8, c2 :: rest)
        else if lowerCh c1 = 'x' then (16, c2 :: rest)
        else (8, c1 :: c2 :: rest)
      | '0' :: rest => (8, rest)
      | _ => (10, s)
    match parseUintDigits p.1 0 false p.2 with
    | none => none
    | some (n, us) => if us ∧ ¬ underscoreOK s then none else some n

/-- Go `strconv.ParseInt(s, 0, 64)`; `none` for any error (the parser only
tests `err != nil`). -/
def goParseInt (s : List Char) : Option Int :=
  match s with
  | [] => none
  | c :: rest =>
    let q : Bool × List Char :=
      if c = '+' then (false, rest)
      else if c = '-' then (true, rest) else (false, s)
    match goParseUint q.2 with
    | none => none
    | some un =>
      if ¬ q.1 ∧ 2 ^ 63 ≤ un then none
      else if q.1 ∧ 2 ^ 63 < un then none
      else some (if q.1 then -(un : Int) else (un : Int))

/-- `strconv.ParseInt(s, 0, 64)` on a `String`. -/
def goParseIntStr (s : String) : Option Int := goParseInt s.data

example : goParseIntStr "12" = some 12 := by decide
example : goParseIntStr "017" = some 15 := by decide
example : goParseIntStr "08" = none := by decide
example : goParseIntStr "0" = some 0 := by decide
example : goParseIntStr "" = none := by decide
example : goParseIntStr "9223372036854775807" = some 9223372036854775807 := by decide
example : goParseIntStr "9223372036854775808" = none := by decide
example : goParseIntStr "-9223372036854775808" = some (-9223372036854775808) := by decide
example : goParseIntStr "1_2" = some 12 := by decide
example : goParseIntStr "_12" = none := by decide
example : goParseIntStr "0x1f" = some 31 := by decide

/-! ## Lexer (`lexer/lexer.go`)

State: the full input, the byte position, and line/column counters.  Go keeps
`currentChar` as a field maintained so that it always equals
`input[pos]` (or `0` past the end); here it is derived, which preserves that
invariant by construction.  A lexer panic (invalid escape, unterminated
literal, unexpected character) is an `Except.error`; the message text of the
Go `panic` format strings is abbreviated, no claim depends on it. -/

/-- The lexer state (`Lexer` struct). -/
structure Lexer where
  input : List Char
  pos : Nat
  line : Nat
  column : Nat
deriving DecidableEq, Repr

/-- The maintained `currentChar` field: the character under `pos`, or `0`
at/past the end of input. -/
def Lexer.currentChar (l : Lexer) : Char := l.input.getD l.pos '\x00'

/-- `lexer.New`: position 0, line 1, column 1. -/
def Lexer.new (input : String) : Lexer := ⟨input.data, 0, 1, 1⟩

/-- `advance`: bump line/reset column on a newline, then move one character. -/
def Lexer.advance (l : Lexer) : Lexer :=
  let lc : Nat × Nat :=
    if l.currentChar = '\n' then (l.line + 1, 0) else (l.line, l.column)
  { input := l.input, pos := l.pos + 1, line := lc.1, column := lc.2 + 1 }

/-- The `skipWhitespace` loop, with fuel. -/
def skipWhitespaceF : Nat → Lexer → Lexer
  | 0, l => l
  | fuel + 1, l =>
    if isGoSpace l.currentChar then skipWhitespaceF fuel l.advance else l

/-- `skipWhitespace`: skip a run of whitespace.  Fuel `|input| + 1` can never
run out: every iteration needs a whitespace `currentChar`, hence `pos` below
`|input|`, and advances `pos`. -/
def Lexer.skipWhitespace (l : Lexer) : Lexer :=
  skipWhitespaceF (l.input.length + 1) l

/-- The scanning loop of `readIdentifier` (letters and digits), with fuel. -/
def scanIdentF : Nat → Lexer → Lexer
  | 0, l => l
  | fuel + 1, l =>
    if isGoLetter l.currentChar ∨ isGoDigit l.currentChar then
      scanIdentF fuel l.advance
    else l

/-- The scanning loop of `readNumber` (digits), with fuel. -/
def scanDigitsF : Nat → Lexer → Lexer
  | 0, l => l
  | fuel + 1, l =>
    if isGoDigit l.currentChar then scanDigitsF fuel l.advance else l

/-- `l.input[a:b]` as a `String`. -/
def strSlice (input : List Char) (a b : Nat) : String :=
  String.mk ((input.drop a).take (b - a))

/-- `readIdentifier`: greedy letters/digits, then keyword reclassification. -/
def Lexer.readIdentifier (l : Lexer) : Token × Lexer :=
  let l2 := scanIdentF (l.input.length + 1) l
  let value := strSlice l.input l.pos l2.pos
  let tt : TokenType :=
    match reverseKeywords.lookup value with
    | some k => k
    | none => .IDENTIFIER
  (⟨tt, value, l.line, l.column⟩, l2)

/-- `readNumber`: greedy digits, kept as literal text. -/
def Lexer.readNumber (l : Lexer) : Token × Lexer :=
  let l2 := scanDigitsF (l.input.length + 1) l
  (⟨.NUMBER, strSlice l.input l.pos l2.pos, l.line, l.column⟩, l2)

/-- `readChar`: opening quote, one ordinary character or one escape drawn
from `\n \t \r \' \\`, then a required closing quote; anything else panics. -/
def Lexer.readChar (l : Lexer) : Except String (Token × Lexer) :=
  let startLine := l.line
  let startCol := l.column
  let l1 := l.advance
  let r : Except String (String × Lexer) :=
    if l1.currentChar = '\\' then
      let l2 := l1.advance
      match l2.currentChar with
      | 'n' => .ok ("\n", l2.advance)
      | 't' => .ok ("\t", l2.advance)
      | 'r' => .ok ("\r", l2.advance)
      | '\'' => .ok ("'", l2.advance)
      | '\\' => .ok ("\\", l2.advance)
      | _ => .error "invalid escape character in char literal"
    else
      .ok (String.mk [l1.currentChar], l1.advance)
  match r with
  | .error m => .error m
  | .ok (value, l3) =>
    if l3.currentChar ≠ '\'' then .error "unterminated char literal"
    else .ok (⟨.CharConst, value, startLine, startCol⟩, l3.advance)

/-- The accumulation loop of `readString`, with fuel: ordinary characters and
the escapes `\n \t \r \" \\`, until a closing quote or end of input. -/
def readStringF : Nat → Lexer → List Char → Except String (List Char × Lexer)
  | 0, l, acc => .ok (acc, l)
  | fuel + 1, l, acc =>
    if l.currentChar ≠ '"' ∧ l.currentChar ≠ '\x00' then
      if l.currentChar = '\\' then
        let l2 := l.advance
        match l2.currentChar with
        | 'n' => readStringF fuel l2.advance (acc ++ ['\n'])
        | 't' => readStringF fuel l2.advance (acc ++ ['\t'])
        | 'r' => readStringF fuel l2.advance (acc ++ ['\r'])
        | '"' => readStringF fuel l2.advance (acc ++ ['"'])
        | '\\' => readStringF fuel l2.advance (acc ++ ['\\'])
        | _ => .error "invalid escape character in string literal"
      else readStringF fuel l.advance (acc ++ [l.currentChar])
    else .ok (acc, l)

/-- `readString`: opening quote, the loop above, required closing quote. -/
def Lexer.readString (l : Lexer) : Except String (Token × Lexer) :=
  let startLine := l.line
  let startCol := l.column
  let l1 := l.advance
  match readStringF (l.input.length + 1) l1 [] with
  | .error m => .error m
  | .ok (value, l2) =>
    if l2.currentChar ≠ '"' then .error "unterminated string literal"
    else .ok (⟨.STRING, String.mk value, startLine, startCol⟩, l2.advance)

/-- `NextToken`: the Go loop first skips whitespace and re-tests; once the
current character is stable it either returns the EOF marker (current
character `0`) or classifies exactly one token — so the loop is equivalent to
one `skipWhitespace` followed by one classification, which is how it is
written here. -/
def Lexer.NextToken (l0 : Lexer) : Except String (Token × Lexer) :=
  let l := l0.skipWhitespace
  if l.currentChar = '\x00' then .ok (⟨.EOF, "", l.line, l.column⟩, l)
  else if l.currentChar = '\'' then l.readChar
  else if l.currentChar = '"' then l.readString
  else if isGoLetter l.currentChar then .ok l.readIdentifier
  else if isGoDigit l.currentChar then .ok l.readNumber
  else
    let c := l.currentChar
    let ln := l.line
    let col := l.column
    let l1 := l.advance
    match c with
    | '=' =>
      if l1.currentChar = '=' then .ok (⟨.EQUAL, "==", ln, col⟩, l1.advance)
      else .ok (⟨.ASSIGN, "=", ln, col⟩, l1)
    | '!' =>
      if l1.currentChar = '=' then .ok (⟨.NOTEQ, "!=", ln, col⟩, l1.advance)
      else .ok (⟨.NOT, "!", ln, col⟩, l1)
    | '<' =>
      if l1.currentChar = '=' then .ok (⟨.LessEqual, "<=", ln, col⟩, l1.advance)
      else .ok (⟨.LESS, "<", ln, col⟩, l1)
    | '>' =>
      if l1.currentChar = '=' then .ok (⟨.GreatEqual, ">=", ln, col⟩, l1.advance)
      else .ok (⟨.GREAT, ">", ln, col⟩, l1)
    | '+' => .ok (⟨.PLUS, "+", ln, col⟩, l1)
    | '-' => .ok (⟨.MINUS, "-", ln, col⟩, l1)
    | '*' => .ok (⟨.MULTIPLY, "*", ln, col⟩, l1)
    | '/' => .ok (⟨.DIVIDE, "/", ln, col⟩, l1)
    | ';' => .ok (⟨.SEMICOLON, ";", ln, col⟩, l1)
    | ',' => .ok (⟨.COMMA, ",", ln, col⟩, l1)
    | '(' => .ok (⟨.LeftParen, "(", ln, col⟩, l1)
    | ')' => .ok (⟨.RightParen, ")", ln, col⟩, l1)
    | '{' => .ok (⟨.LeftBrace, "\x7b", ln, col⟩, l1)
    | '}' => .ok (⟨.RightBrace, "\x7d", ln, col⟩, l1)
    | '[' => .ok (⟨.LeftBrack, "[", ln, col⟩, l1)
    | ']' => .ok (⟨.RightBrack, "]", ln, col⟩, l1)
    | ':' => .ok (⟨.COLON, ":", ln, col⟩, l1)
    | _ => .error "unexpected character"

/-- Collect all tokens up to and including the EOF marker (what the golden
tests and, in effect, the parser consume), with fuel. -/
def lexAllF : Nat → Lexer → Except String (List Token)
  | 0, _ => .error "lexer fuel exhausted"
  | fuel + 1, l =>
    match l.NextToken with
    | .error m => .error m
    | .ok (tok, l1) =>
      if tok.typ = .EOF then .ok [tok]
      else
        match lexAllF fuel l1 with
        | .error m => .error m
        | .ok ts => .ok (tok :: ts)

/-- Tokenize a whole input.  Every token before EOF consumes at least one
character, so fuel `|input| + 1` can never run out. -/
def lexAll (l : Lexer) : Except String (List Token) :=
  lexAllF (l.input.length + 1) l

instance {ε α : Type} [DecidableEq ε] [DecidableEq α] :
    DecidableEq (Except ε α) := fun a b =>
  match a, b with
  | .error e, .error f =>
    if h : e = f then .isTrue (by rw [h])
    else .isFalse (fun hh => h (by injection hh))
  | .ok x, .ok y =>
    if h : x = y then .isTrue (by rw [h])
    else .isFalse (fun hh => h (by injection hh))
  | .error _, .ok _ => .isFalse (fun hh => Except.noConfusion hh)
  | .ok _, .error _ => .isFalse (fun hh => Except.noConfusion hh)

/-- The (kind, text) projection of a token — the part of a token the parser
and the end-to-end claims observe. -/
def tokProj (t : Token) : TokenType × String := (t.typ, t.value)

example :
    (lexAll (Lexer.new "12 + 7 - 5")).map (List.map tokProj) =
      .ok [(.NUMBER, "12"), (.PLUS, "+"), (.NUMBER, "7"), (.MINUS, "-"),
           (.NUMBER, "5"), (.EOF, "")] := by decide

example :
    (Lexer.new "'\\n'").NextToken =
      .ok (⟨.CharConst, "\n", 1, 1⟩, ⟨"'\\n'".data, 4, 1, 5⟩) := by decide

example : ((Lexer.new "'\\\"'").NextToken).isOk = false := by decide

example : ((Lexer.new "\"\\'\"").NextToken).isOk = false := by decide

example :
    ((Lexer.new "\"a\\\"b\"").NextToken).map (fun r => tokProj r.1) =
      .ok (.STRING, "a\"b") := by decide

/-! ## Expression tree (`ast/ast.go`)

`ast.Node` is an open Go interface; the defined variants are `*ast.Program`,
`*ast.InfixExpression` and `*ast.IntegerLiteral`.  The constructor `unknown`
stands for every other dynamic type — in particular the nil interface that
`parseIntegerLiteral` returns for a malformed literal — all of which fall
through the compiler's type switch identically. -/

/-- The expression tree. -/
inductive Node where
  | program (expr : Node)
  | infx (tok : Token) (left : Node) (operator : String) (right : Node)
  | intLit (tok : Token) (value : Int)
  | unknown
deriving DecidableEq, Repr

/-! ## Parser (`package parser`)

The Go parser holds a lexer and pulls tokens lazily; the model holds the
pending token list (`rest`), from which `nextToken` draws, yielding the EOF
filler once exhausted — exactly the stream a lexer delivers, since at end of
input the lexer returns the EOF marker forever. -/

/-- The parser state: accumulated errors, current/peek tokens, pending
tokens. -/
structure Parser where
  errors : List String
  curToken : Token
  peekToken : Token
  rest : List Token
deriving DecidableEq, Repr

/-- The token an exhausted stream keeps producing (kind EOF, empty text). -/
def eofToken : Token := ⟨.EOF, "", 0, 0⟩

/-- The zero `lexer.Token` value the Go parser starts from before its two
priming `nextToken` calls. -/
def zeroToken : Token := ⟨.PUBLIC, "", 0, 0⟩

/-- `p.nextToken()`: shift peek into cur, pull the next token. -/
def Parser.nextToken (p : Parser) : Parser :=
  { errors := p.errors, curToken := p.peekToken,
    peekToken := p.rest.headD eofToken, rest := p.rest.tail }

/-- `parser.New`: prime `curToken` and `peekToken` with two pulls. -/
def Parser.new (toks : List Token) : Parser :=
  (Parser.mk [] zeroToken zeroToken toks).nextToken.nextToken

/-- The message of `fmt.Sprintf("could not parse %q as integer", v)` (naive
quoting; no claim inspects message text). -/
def errMsg (v : String) : String :=
  "could not parse \"" ++ v ++ "\" as integer"

/-- `parseIntegerLiteral`: convert the current token's text with
`strconv.ParseInt(v, 0, 64)`; on failure append one message and yield no
node (the nil interface, here `unknown`). -/
def Parser.parseIntegerLiteral (p : Parser) : Node × Parser :=
  match goParseIntStr p.curToken.value with
  | none =>
    (.unknown, { p with errors := p.errors ++ [errMsg p.curToken.value] })
  | some v => (.intLit p.curToken v, p)

/-- `parseInfixExpression`: capture the operator token, advance to the right
operand, parse it as an integer literal. -/
def Parser.parseInfixExpression (p : Parser) (left : Node) : Node × Parser :=
  let tok := p.curToken
  let operator := p.curToken.value
  let p1 := p.nextToken
  let pr := p1.parseIntegerLiteral
  (.infx tok left operator pr.1, pr.2)

/-- The combination loop of `parseExpression`, with fuel: while the peek
token is `+` or `-`, advance onto the operator and fold the previous result
in as the left operand. -/
def parseExprLoopF : Nat → Node → Parser → Node × Parser
  | 0, left, p => (left, p)
  | fuel + 1, left, p =>
    if p.peekToken.typ = .PLUS ∨ p.peekToken.typ = .MINUS then
      let p1 := p.nextToken
      let pr := p1.parseInfixExpression left
      parseExprLoopF fuel pr.1 pr.2
    else (left, p)

/-- `parseExpression`.  Fuel `|rest| + 2` can never run out: an iteration
either consumes two pending tokens or drains the stream, after which the
peek token is the EOF filler and the loop stops. -/
def Parser.parseExpression (p : Parser) : Node × Parser :=
  let pr := p.parseIntegerLiteral
  parseExprLoopF (pr.2.rest.length + 2) pr.1 pr.2

/-- `ParseProgram`: one expression wrapped in a program node. -/
def Parser.ParseProgram (p : Parser) : Node × Parser :=
  let pr := p.parseExpression
  (.program pr.1, pr.2)

/-! ## Compiler (`compiler/compiler.go`, bytecode tables) -/

/-- `OpConstant` (one 2-byte big-endian operand). -/
abbrev OpConstant : Nat := 0

/-- `OpAdd` (no operand). -/
abbrev OpAdd : Nat := 1

/-- `OpSub` (no operand). -/
abbrev OpSub : Nat := 2

/-- The bytecode artifact: instruction bytes plus constant pool. -/
structure Bytecode where
  instructions : List Nat
  constants : List GoVal
deriving DecidableEq, Repr

/-- The compiler state. -/
structure Compiler where
  instructions : List Nat
  constants : List GoVal
deriving DecidableEq, Repr

/-- `compiler.New`. -/
def Compiler.new : Compiler := ⟨[], []⟩

/-- `emit`: append the opcode byte, then each operand as two bytes, high
(`byte(o>>8)`) then low (`byte(o)`) — a silent truncation to 16 bits. -/
def Compiler.emit (c : Compiler) (op : Nat) (operands : List Nat) : Compiler :=
  { c with instructions :=
      c.instructions ++
        op :: (operands.map (fun o => [o / 256 % 256, o % 256])).flatten }

/-- `Compile`: post-order walk.  Unrecognized node kinds (and the nil
interface) fall through the type switch: nothing is emitted and a nil error
is returned. -/
def Compiler.compile (c : Compiler) : Node → Except String Compiler
  | .program expr => c.compile expr
  | .infx _ left operator right =>
    match c.compile left with
    | .error e => .error e
    | .ok c1 =>
      match c1.compile right with
      | .error e => .error e
      | .ok c2 =>
        if operator = "+" then .ok (c2.emit OpAdd [])
        else if operator = "-" then .ok (c2.emit OpSub [])
        else .ok c2
  | .intLit _ value =>
    let cs := c.constants ++ [GoVal.int value]
    .ok ({ c with constants := cs }.emit OpConstant [cs.length - 1])
  | .unknown => .ok c

/-- `Bytecode()`: package the instruction stream and constant pool. -/
def Compiler.bytecode (c : Compiler) : Bytecode := ⟨c.instructions, c.constants⟩

/-! ## Virtual machine (the `package vm` file) -/

/-- `StackSize`. -/
abbrev StackSize : Nat := 2048

/-- The VM: its bytecode, the fixed 2048-slot stack array, and the stack
pointer (`0 ≤ sp`, one past the top element). -/
structure VM where
  bytecode : Bytecode
  stack : List GoVal
  sp : Nat
deriving DecidableEq, Repr

/-- `vm.New`: a fresh 2048-slot stack of nil values, `sp = 0`. -/
def VM.new (bc : Bytecode) : VM := ⟨bc, List.replicate StackSize GoVal.nil, 0⟩

/-- `pop`: on an empty stack return the nil interface and leave `sp` at 0;
otherwise decrement `sp` and return the slot it now indexes (the slot is not
cleared). -/
def VM.pop (vm : VM) : GoVal × VM :=
  if vm.sp = 0 then (GoVal.nil, vm)
  else (vm.stack.getD (vm.sp - 1) GoVal.nil, { vm with sp := vm.sp - 1 })

/-- `push`: error (`none`) when `sp` has reached capacity, leaving the VM
untouched; otherwise write the slot at `sp` and increment. -/
def VM.push (vm : VM) (o : GoVal) : Option VM :=
  if StackSize ≤ vm.sp then none
  else some { vm with stack := vm.stack.set vm.sp o, sp := vm.sp + 1 }

/-- `StackTop`: peek without popping; nil on an empty stack. -/
def VM.StackTop (vm : VM) : GoVal :=
  if vm.sp = 0 then GoVal.nil else vm.stack.getD (vm.sp - 1) GoVal.nil

/-- The outcome of `Run`: normal completion, a returned error (Go
`return err` — the caller still holds the VM in the carried state), or a
runtime panic (index out of range / failed `.(int64)` type assertion). -/
inductive RunRes where
  | ok (vm : VM)
  | err (msg : String) (vm : VM)
  | panicked (msg : String)
deriving DecidableEq, Repr

/-- The fetch–decode–execute loop of `Run`, with fuel.  Also returns the
list of `sp` values observed at each loop-condition check (the stack-depth
trace).  An unrecognized opcode byte matches no `switch` case: the loop just
continues at `ip + 1`. -/
def RunAuxF : Nat → VM → Nat → RunRes × List Nat
  | 0, _, _ => (.panicked "vm fuel exhausted", [])
  | fuel + 1, vm, ip =>
    match vm.bytecode.instructions.drop ip with
    | [] => (.ok vm, [vm.sp])
    | op :: restI =>
      if op = OpConstant then
        match restI with
        | b1 :: b2 :: _ =>
          let constIndex := b1 * 256 + b2
          if constIndex < vm.bytecode.constants.length then
            match vm.push (vm.bytecode.constants.getD constIndex GoVal.nil) with
            | none => (.err "stack overflow" vm, [vm.sp])
            | some vm2 =>
              let r := RunAuxF fuel vm2 (ip + 3)
              (r.1, vm.sp :: r.2)
          else (.panicked "index out of range in constant pool", [vm.sp])
        | _ => (.panicked "index out of range in instructions", [vm.sp])
      else if op = OpAdd ∨ op = OpSub then
        let pr := vm.pop
        match pr.1 with
        | .int rightV =>
          let pl := pr.2.pop
          match pl.1 with
          | .int leftV =>
            let result :=
              if op = OpAdd then i64add leftV rightV else i64sub leftV rightV
            match pl.2.push (.int result) with
            | none => (.err "stack overflow" pl.2, [vm.sp])
            | some vm2 =>
              let r := RunAuxF fuel vm2 (ip + 1)
              (r.1, vm.sp :: r.2)
          | .nil => (.panicked "interface conversion: nil is not int64", [vm.sp])
        | .nil => (.panicked "interface conversion: nil is not int64", [vm.sp])
      else
        let r := RunAuxF fuel vm (ip + 1)
        (r.1, vm.sp :: r.2)

/-- `Run`.  Fuel `|instructions| + 1` can never run out: `ip` strictly
increases every iteration and the loop requires `ip < |instructions|`. -/
def VM.Run (vm : VM) : RunRes :=
  (RunAuxF (vm.bytecode.instructions.length + 1) vm 0).1

/-- The stack-depth trace of the same run: `sp` at every loop-condition
check. -/
def VM.RunTrace (vm : VM) : List Nat :=
  (RunAuxF (vm.bytecode.instructions.length + 1) vm 0).2

/-! ## The full pipeline (`main.go`, the thin glue) -/

/-- Tokenize, parse (stopping on accumulated parse errors, as `main` does),
compile, run, and peek the stack top. -/
def pipeline (src : String) : Except String GoVal :=
  match lexAll (Lexer.new src) with
  | .error m => .error m
  | .ok toks =>
    let pr := (Parser.new toks).ParseProgram
    if pr.2.errors ≠ [] then .error "parse errors"
    else
      match Compiler.new.compile pr.1 with
      | .error m => .error m
      | .ok c =>
        match (VM.new c.bytecode).Run with
        | .ok vm => .ok vm.StackTop
        | .err m _ => .error m
        | .panicked m => .error ("panic: " ++ m)

example : pipeline "12 + 7 - 5" = .ok (.int 14) := by decide

example : pipeline "017" = .ok (.int 15) := by decide

example : pipeline "08" = .error "parse errors" := by decide

/-! ## Basic lexer lemmas -/

/-- At or past the end of input the derived current character is the `0`
marker. -/
theorem currentChar_of_le {l : Lexer} (h : l.input.length ≤ l.pos) :
    l.currentChar = '\x00' := by
  simp [Lexer.currentChar, List.getD, List.getElem?_eq_none h]

/-- A lexer whose current character is not whitespace is left untouched by
`skipWhitespace`. -/
theorem skipWhitespace_of_not_space {l : Lexer} (h : ¬ isGoSpace l.currentChar) :
    l.skipWhitespace = l := by
  unfold Lexer.skipWhitespace skipWhitespaceF
  simp [h]

/-- **C8.** Once the tokenizer is at or past the end of its input, `NextToken`
returns the end-of-input marker (kind `EOF`, empty text, the current
line/column) and leaves the lexer state unchanged — so every further call
returns the same marker again. -/
theorem nextToken_at_eof (l : Lexer) (h : l.input.length ≤ l.pos) :
    l.NextToken = .ok (⟨.EOF, "", l.line, l.column⟩, l) := by
  have hc : l.currentChar = '\x00' := currentChar_of_le h
  have hs : l.skipWhitespace = l :=
    skipWhitespace_of_not_space (by rw [hc]; decide)
  unfold Lexer.NextToken
  rw [hs]
  simp [hc]

/-- Witness for C8 at a concrete exhausted lexer. -/
theorem nextToken_at_eof_witness :
    (Lexer.mk ['h', 'i'] 5 3 7).input.length ≤ 5 ∧
      (Lexer.mk ['h', 'i'] 5 3 7).NextToken =
        .ok (⟨.EOF, "", 3, 7⟩, Lexer.mk ['h', 'i'] 5 3 7) :=
  ⟨by decide, nextToken_at_eof _ (by decide)⟩

/-! ## Compiler totality (C7) -/

/-- **C7.** `Compile` never reports an error: every tree node — including the
`unknown` kinds outside the defined variants — compiles to a nil error, and
an unrecognized kind leaves the compiler untouched (no instructions, no
constants). -/
theorem compile_total_ignores_unknown :
    (∀ (c : Compiler) (n : Node), ∃ c', c.compile n = .ok c') ∧
      (∀ c : Compiler, c.compile .unknown = .ok c) := by
  constructor
  · intro c n
    induction n generalizing c with
    | program e ih => exact ih c
    | infx tok left operator right ihl ihr =>
      obtain ⟨c1, h1⟩ := ihl c
      obtain ⟨c2, h2⟩ := ihr c1
      unfold Compiler.compile
      simp only [h1, h2]
      split
      · exact ⟨_, rfl⟩
      · split
        · exact ⟨_, rfl⟩
        · exact ⟨_, rfl⟩
    | intLit tok v => exact ⟨_, rfl⟩
    | unknown => exact ⟨_, rfl⟩
  · intro c
    rfl

/-! ## Stack access helpers -/

theorem getD_set_self {α : Type} (xs : List α) (i : Nat) (v d : α)
    (h : i < xs.length) : (xs.set i v).getD i d = v := by
  simp [List.getD, List.getElem?_set_self', h]

theorem getD_set_ne {α : Type} (xs : List α) {i j : Nat} (v d : α)
    (h : i ≠ j) : (xs.set i v).getD j d = xs.getD j d := by
  simp [List.getD, List.getElem?_set_ne h]

/-- `wrap64` really is reduction mod `2^64` into the `int64` range. -/
theorem wrap64_spec (z : Int) :
    (wrap64 z - z) % 2 ^ 64 = 0 ∧ -2 ^ 63 ≤ wrap64 z ∧ wrap64 z < 2 ^ 63 := by
  unfold wrap64
  omega

/-! ## C5: add/subtract semantics -/

/-- The two-value stack used to state C5: `a` at depth 0 (pushed first),
`b` at depth 1 (pushed last). -/
def twoStack (a b : Int) : List GoVal :=
  ((List.replicate StackSize GoVal.nil).set 0 (GoVal.int a)).set 1 (GoVal.int b)

/-- **C5.** Executing an add (resp. subtract) opcode with `a` below `b` on
the stack pops the operand pushed last (`b`, the right operand) first, then
the left operand `a`, pushes the single result `a + b` (resp. `a - b`)
computed with 64-bit wraparound, and completes normally with `sp = 1`.  The
final conjuncts state that the wraparound result is congruent to the exact
integer mod `2^64` and lies in the signed 64-bit range. -/
theorem vm_binop_pops_right_then_left (a b : Int) :
    VM.Run ⟨⟨[OpAdd], []⟩, twoStack a b, 2⟩ =
        .ok ⟨⟨[OpAdd], []⟩, (twoStack a b).set 0 (.int (i64add a b)), 1⟩ ∧
      VM.Run ⟨⟨[OpSub], []⟩, twoStack a b, 2⟩ =
        .ok ⟨⟨[OpSub], []⟩, (twoStack a b).set 0 (.int (i64sub a b)), 1⟩ ∧
      (VM.StackTop ⟨⟨[], []⟩, (twoStack a b).set 0 (.int (i64sub a b)), 1⟩ =
        .int (i64sub a b)) ∧
      (i64add a b - (a + b)) % 2 ^ 64 = 0 ∧
      (i64sub a b - (a - b)) % 2 ^ 64 = 0 ∧
      -2 ^ 63 ≤ i64add a b ∧ i64add a b < 2 ^ 63 ∧
      -2 ^ 63 ≤ i64sub a b ∧ i64sub a b < 2 ^ 63 := by
  have hlen : (twoStack a b).length = StackSize := by
    simp [twoStack]
  have h1 : (twoStack a b)[1]? = some (GoVal.int b) := by
    simp [twoStack, List.getElem?_set_self', List.getElem?_set_ne,
      List.getElem?_replicate]
  have h0 : (twoStack a b)[0]? = some (GoVal.int a) := by
    have hne : (1 : Nat) ≠ 0 := by decide
    simp [twoStack, List.getElem?_set_ne hne, List.getElem?_set_self',
      List.getElem?_replicate]
  refine ⟨?_, ?_, ?_, (wrap64_spec (a + b)).1, (wrap64_spec (a - b)).1,
    (wrap64_spec (a + b)).2.1, (wrap64_spec (a + b)).2.2,
    (wrap64_spec (a - b)).2.1, (wrap64_spec (a - b)).2.2⟩
  · simp [VM.Run, RunAuxF, VM.pop, VM.push, h1, h0, hlen, List.getD]
  · simp [VM.Run, RunAuxF, VM.pop, VM.push, h1, h0, hlen, List.getD]
  · simp [VM.StackTop, List.getD, List.getElem?_set_self', hlen]

/-! ## C10: pop on empty, binop underflow panics -/

/-- **C10.** Popping an empty stack returns the nil interface and leaves the
VM (in particular `sp = 0`) unchanged, and executing an add/subtract opcode
with fewer than two stacked values makes `Run` end in a runtime panic (the
`.(int64)` assertion on the nil value) — a crash, not the recoverable error
result that stack overflow produces. -/
theorem pop_empty_nil_binop_underflow_panics :
    (∀ vm : VM, vm.sp = 0 → vm.pop = (GoVal.nil, vm)) ∧
      (∀ (bc : Bytecode) (stack : List GoVal) (sp : Nat),
        (bc.instructions = [OpAdd] ∨ bc.instructions = [OpSub]) → sp < 2 →
        VM.Run ⟨bc, stack, sp⟩ =
          .panicked "interface conversion: nil is not int64") := by
  constructor
  · intro vm h
    simp [VM.pop, h]
  · intro bc stack sp hbc hsp
    rcases hbc with hbc | hbc
    all_goals
      interval_cases sp
      · simp [VM.Run, RunAuxF, VM.pop, hbc]
      · simp only [VM.Run, RunAuxF, VM.pop, hbc]
        norm_num
        split
        · rfl
        · rfl

/-- Witness for C10 at concrete inputs. -/
theorem pop_empty_nil_binop_underflow_witness :
    (VM.pop ⟨⟨[], []⟩, [], 0⟩ = (GoVal.nil, ⟨⟨[], []⟩, [], 0⟩)) ∧
      VM.Run ⟨⟨[OpAdd], []⟩, [], 0⟩ =
        .panicked "interface conversion: nil is not int64" :=
  ⟨pop_empty_nil_binop_underflow_panics.1 _ rfl,
    pop_empty_nil_binop_underflow_panics.2 ⟨[OpAdd], []⟩ [] 0 (Or.inl rfl)
      (by decide)⟩

/-! ## C2: stack overflow -/

/-- Reading an appended list at an offset past the first part. -/
theorem getD_append_off {α : Type} (l l2 : List α) (d : α) (i : Nat) :
    (l ++ l2).getD (l.length + i) d = l2.getD i d := by
  rw [List.getD_append_right l l2 d _ (Nat.le_add_right _ _)]
  simp

/-- A straight-line program of `k` load-constant instructions (all index 0
into a one-entry pool): `k` consecutive pushes, no pops. -/
def pushProg (k : Nat) : Bytecode :=
  ⟨(List.replicate k ([OpConstant, 0, 0] : List Nat)).flatten, [GoVal.int 0]⟩

/-- Running the tail of a straight-push program: with `k` pushes to go, the
run completes with `sp` grown by `k` if that stays within capacity, and
otherwise stops at the first push attempted with `sp = StackSize`, returning
the overflow error with `sp` still exactly `StackSize`. -/
theorem runAux_pushes (k : Nat) :
    ∀ (bc : Bytecode) (pre : List Nat) (stack : List GoVal) (sp fuel : Nat),
      bc.instructions =
        pre ++ (List.replicate k ([OpConstant, 0, 0] : List Nat)).flatten →
      bc.constants = [GoVal.int 0] →
      k + 1 ≤ fuel →
      (sp + k ≤ StackSize →
        ∃ st', (RunAuxF fuel ⟨bc, stack, sp⟩ pre.length).1 =
          .ok ⟨bc, st', sp + k⟩) ∧
      (StackSize < sp + k → sp ≤ StackSize →
        ∃ st', (RunAuxF fuel ⟨bc, stack, sp⟩ pre.length).1 =
          .err "stack overflow" ⟨bc, st', StackSize⟩) := by
  induction k with
  | zero =>
    intro bc pre stack sp fuel hins hcs hfuel
    obtain ⟨f, rfl⟩ : ∃ f, fuel = f + 1 := ⟨fuel - 1, by omega⟩
    constructor
    · intro _
      refine ⟨stack, ?_⟩
      have hdrop : bc.instructions.drop pre.length = [] := by
        rw [hins]
        simp
      simp [RunAuxF, hdrop]
    · intro h1 h2
      exact absurd h1 (by omega)
  | succ k ih =>
    intro bc pre stack sp fuel hins hcs hfuel
    obtain ⟨f, rfl⟩ : ∃ f, fuel = f + 1 := ⟨fuel - 1, by omega⟩
    have hins' : bc.instructions =
        (pre ++ [OpConstant, 0, 0]) ++
          (List.replicate k ([OpConstant, 0, 0] : List Nat)).flatten := by
      rw [hins, List.replicate_succ, List.flatten_cons]
      simp
    have hdrop : bc.instructions.drop pre.length =
        OpConstant :: 0 :: 0 ::
          (List.replicate k ([OpConstant, 0, 0] : List Nat)).flatten := by
      rw [hins, List.drop_left, List.replicate_succ, List.flatten_cons]
      rfl
    have harr : pre.length + 3 = (pre ++ [OpConstant, 0, 0]).length := by
      simp
    constructor
    · intro hle
      have hsp : ¬ StackSize ≤ sp := by omega
      have step := ih bc (pre ++ [OpConstant, 0, 0])
        (stack.set sp (GoVal.int 0)) (sp + 1) f hins' hcs (by omega)
      obtain ⟨st', hst'⟩ := step.1 (by omega)
      refine ⟨st', ?_⟩
      have hstep : (RunAuxF (f + 1) ⟨bc, stack, sp⟩ pre.length).1 =
          (RunAuxF f ⟨bc, stack.set sp (GoVal.int 0), sp + 1⟩
            (pre.length + 3)).1 := by
        simp only [RunAuxF]
        rw [hdrop]
        simp [VM.push, hcs, hsp]
      rw [hstep, harr, show sp + (k + 1) = sp + 1 + k from by omega]
      exact hst'
    · intro hgt hle
      by_cases hsp : sp = StackSize
      · refine ⟨stack, ?_⟩
        subst hsp
        simp only [RunAuxF]
        rw [hdrop]
        simp [VM.push, hcs]
      · have hsp' : ¬ StackSize ≤ sp := by omega
        have step := ih bc (pre ++ [OpConstant, 0, 0])
          (stack.set sp (GoVal.int 0)) (sp + 1) f hins' hcs (by omega)
        obtain ⟨st', hst'⟩ := step.2 (by omega) (by omega)
        refine ⟨st', ?_⟩
        have hstep : (RunAuxF (f + 1) ⟨bc, stack, sp⟩ pre.length).1 =
            (RunAuxF f ⟨bc, stack.set sp (GoVal.int 0), sp + 1⟩
              (pre.length + 3)).1 := by
          simp only [RunAuxF]
          rw [hdrop]
          simp [VM.push, hcs, hsp']
        rw [hstep, harr]
        exact hst'

/-- **C2.** Stack overflow is a reported, recoverable failure: a push with
`sp` at capacity fails and changes nothing, a push below capacity succeeds,
a `Run` whose next instruction pushes while `sp = StackSize` stops
immediately with the error result and the stack and `sp` unchanged, and on a
straight-line program of `k` pushes from a fresh VM the run succeeds exactly
when `k ≤ 2048` and otherwise fails at the 2049-th push with `sp` left at
2048. -/
theorem stack_overflow_recoverable :
    (∀ (vm : VM) (o : GoVal), vm.sp = StackSize → vm.push o = none) ∧
      (∀ (vm : VM) (o : GoVal), vm.sp < StackSize →
        vm.push o = some ⟨vm.bytecode, vm.stack.set vm.sp o, vm.sp + 1⟩) ∧
      (∀ (bc : Bytecode) (stack : List GoVal) (b1 b2 : Nat) (rest : List Nat),
        bc.instructions = OpConstant :: b1 :: b2 :: rest →
        b1 * 256 + b2 < bc.constants.length →
        VM.Run ⟨bc, stack, StackSize⟩ =
          .err "stack overflow" ⟨bc, stack, StackSize⟩) ∧
      (∀ k, k ≤ StackSize →
        ∃ st', VM.Run (VM.new (pushProg k)) = .ok ⟨pushProg k, st', k⟩) ∧
      (∀ k, StackSize < k →
        ∃ st', VM.Run (VM.new (pushProg k)) =
          .err "stack overflow" ⟨pushProg k, st', StackSize⟩) := by
  refine ⟨?_, ?_, ?_, ?_, ?_⟩
  · intro vm o h
    simp [VM.push, h]
  · intro vm o h
    simp [VM.push, Nat.not_le.mpr h]
  · intro bc stack b1 b2 rest hins hidx
    have hdrop : bc.instructions.drop 0 = OpConstant :: b1 :: b2 :: rest := by
      simp [hins]
    unfold VM.Run
    obtain ⟨f, hf⟩ : ∃ f, bc.instructions.length + 1 = f + 1 :=
      ⟨bc.instructions.length, rfl⟩
    rw [hf]
    simp only [RunAuxF]
    rw [hdrop]
    simp [VM.push, hidx]
  · intro k hk
    have hfuel : k + 1 ≤ (pushProg k).instructions.length + 1 := by
      simp [pushProg, List.length_flatten, List.map_replicate,
        List.sum_replicate, smul_eq_mul]
      omega
    have h := (runAux_pushes k (pushProg k) []
      (List.replicate StackSize GoVal.nil) 0
      ((pushProg k).instructions.length + 1) rfl rfl hfuel).1 (by omega)
    simpa [VM.Run, VM.new] using h
  · intro k hk
    have hfuel : k + 1 ≤ (pushProg k).instructions.length + 1 := by
      simp [pushProg, List.length_flatten, List.map_replicate,
        List.sum_replicate, smul_eq_mul]
      omega
    have h := (runAux_pushes k (pushProg k) []
      (List.replicate StackSize GoVal.nil) 0
      ((pushProg k).instructions.length + 1) rfl rfl hfuel).2 (by omega)
      (by omega)
    simpa [VM.Run, VM.new] using h

/-- Witness for C2 at concrete inputs: a push at capacity fails; 2048 pushes
succeed; 2049 pushes overflow with `sp` left at 2048. -/
theorem stack_overflow_witness :
    VM.push ⟨⟨[], []⟩, [], StackSize⟩ GoVal.nil = none ∧
      (∃ st', VM.Run (VM.new (pushProg 2048)) = .ok ⟨pushProg 2048, st', 2048⟩) ∧
      (∃ st', VM.Run (VM.new (pushProg 2049)) =
        .err "stack overflow" ⟨pushProg 2049, st', StackSize⟩) :=
  ⟨stack_overflow_recoverable.1 _ _ rfl,
    stack_overflow_recoverable.2.2.2.1 2048 (by decide),
    stack_overflow_recoverable.2.2.2.2 2049 (by decide)⟩

/-! ## C6: the parser's error list

`attemptedLits` replays, on the token stream alone, which tokens
`ParseProgram` hands to `parseIntegerLiteral`: the initial current token,
then — while the peek token is `+`/`-` — the token two pulls later.  It
only reads the cur/peek/rest fields, which `parseIntegerLiteral` never
changes, so it stays synchronized with the real loop. -/

/-- The literal-position tokens consumed by the combination loop, given the
current peek token and pending stream. -/
def attemptedLitsLoop : Nat → Token → List Token → List Token
  | 0, _, _ => []
  | fuel + 1, peek, rest =>
    if peek.typ = .PLUS ∨ peek.typ = .MINUS then
      let lit := rest.headD eofToken
      let rest1 := rest.tail
      lit :: attemptedLitsLoop fuel (rest1.headD eofToken) rest1.tail
    else []

/-- All tokens on which `ParseProgram` attempts an integer conversion. -/
def attemptedLits (toks : List Token) : List Token :=
  let p := Parser.new toks
  p.curToken :: attemptedLitsLoop (p.rest.length + 2) p.peekToken p.rest

/-- The messages the failed conversions produce, in order: one per failing
attempted token. -/
def convFailures (toks : List Token) : List String :=
  ((attemptedLits toks).filter
    (fun t => (goParseIntStr t.value).isNone)).map (fun t => errMsg t.value)

/-- The combination loop appends exactly the messages of the failing
conversions among the literal-position tokens it visits. -/
theorem parseExprLoopF_errors (fuel : Nat) :
    ∀ (left : Node) (p : Parser),
      (parseExprLoopF fuel left p).2.errors =
        p.errors ++
          ((attemptedLitsLoop fuel p.peekToken p.rest).filter
            (fun t => (goParseIntStr t.value).isNone)).map
              (fun t => errMsg t.value) := by
  induction fuel with
  | zero =>
    intro left p
    simp [parseExprLoopF, attemptedLitsLoop]
  | succ fuel ih =>
    intro left p
    by_cases hpk : p.peekToken.typ = .PLUS ∨ p.peekToken.typ = .MINUS
    · rw [parseExprLoopF, attemptedLitsLoop]
      simp only [hpk, if_true]
      unfold Parser.parseInfixExpression Parser.parseIntegerLiteral
      cases hval : goParseIntStr (p.rest.headD eofToken).value with
      | none =>
        simp only [Parser.nextToken, goParseIntStr] at hval ⊢
        rw [hval]
        rw [ih]
        rw [List.headD_eq_head?_getD] at hval
        simp [Parser.nextToken, hval, goParseIntStr]
      | some v =>
        simp only [Parser.nextToken, goParseIntStr] at hval ⊢
        rw [hval]
        rw [ih]
        rw [List.headD_eq_head?_getD] at hval
        simp [Parser.nextToken, hval, goParseIntStr]
    · rw [parseExprLoopF, attemptedLitsLoop]
      simp [hpk]

/-- `parser.New` starts with an empty error list. -/
theorem parserNew_errors (toks : List Token) : (Parser.new toks).errors = [] := rfl

/-- **C6.** After `ParseProgram`, the accumulated error list is exactly one
descriptive message per attempted integer-literal conversion that failed (in
order); hence it is non-empty iff at least one attempted conversion failed,
and it is empty whenever every literal-position token converts — in
particular for a well-formed all-integer additive expression. -/
theorem parser_errors_iff_conversion_failure (toks : List Token) :
    ((Parser.new toks).ParseProgram).2.errors = convFailures toks ∧
      (((Parser.new toks).ParseProgram).2.errors ≠ [] ↔
        ∃ t ∈ attemptedLits toks, goParseIntStr t.value = none) ∧
      ((∀ t ∈ attemptedLits toks, (goParseIntStr t.value).isSome) →
        ((Parser.new toks).ParseProgram).2.errors = []) := by
  have hmain : ((Parser.new toks).ParseProgram).2.errors = convFailures toks := by
    cases hval : goParseIntStr (Parser.new toks).curToken.value with
    | none =>
      simp only [Parser.ParseProgram, Parser.parseExpression,
        Parser.parseIntegerLiteral, hval]
      rw [parseExprLoopF_errors]
      simp [convFailures, attemptedLits, hval, parserNew_errors]
    | some v =>
      simp only [Parser.ParseProgram, Parser.parseExpression,
        Parser.parseIntegerLiteral, hval]
      rw [parseExprLoopF_errors]
      simp [convFailures, attemptedLits, hval, parserNew_errors]
  refine ⟨hmain, ?_, ?_⟩
  · rw [hmain]
    unfold convFailures
    constructor
    · intro hne
      have : (attemptedLits toks).filter
          (fun t => (goParseIntStr t.value).isNone) ≠ [] := by
        intro hfil
        exact hne (by rw [hfil]; rfl)
      obtain ⟨t, ht⟩ := List.exists_mem_of_ne_nil _ this
      have := List.mem_filter.mp ht
      exact ⟨t, this.1, Option.isNone_iff_eq_none.mp this.2⟩
    · rintro ⟨t, hmem, hfail⟩ hnil
      have : t ∈ (attemptedLits toks).filter
          (fun t => (goParseIntStr t.value).isNone) :=
        List.mem_filter.mpr ⟨hmem, by simp [hfail]⟩
      rw [List.map_eq_nil_iff] at hnil
      rw [hnil] at this
      exact absurd this (List.not_mem_nil t)
  · intro hall
    rw [hmain]
    unfold convFailures
    have : (attemptedLits toks).filter
        (fun t => (goParseIntStr t.value).isNone) = [] := by
      apply List.filter_eq_nil_iff.mpr
      intro t ht
      have := hall t ht
      simp [Option.isNone_iff_eq_none]
      exact Option.isSome_iff_ne_none.mp this
    rw [this]
    rfl

/-! ## C4: the compiled artifact's constant-pool indices

`segOf k n` is the byte segment `Compile` appends for node `n` when the pool
already holds `k` constants; `opndsOf` decodes the embedded operand of every
load-constant instruction of a (well-formed) instruction stream, using the
encoding of the bytecode tables (`OpConstant` + 2 bytes, big-endian). -/

/-- Number of integer-literal leaves (= constants appended). -/
def numLits : Node → Nat
  | .program e => numLits e
  | .infx _ l _ r => numLits l + numLits r
  | .intLit _ _ => 1
  | .unknown => 0

/-- The constants appended by a compile of `n`, in append order. -/
def litVals : Node → List GoVal
  | .program e => litVals e
  | .infx _ l _ r => litVals l ++ litVals r
  | .intLit _ v => [GoVal.int v]
  | .unknown => []

/-- The opcode byte an infix operator emits (nothing for an unrecognized
operator string). -/
def opByte (operator : String) : List Nat :=
  if operator = "+" then [OpAdd] else if operator = "-" then [OpSub] else []

/-- The instruction bytes `Compile` appends for `n`, starting from pool
size `k`. -/
def segOf (k : Nat) : Node → List Nat
  | .program e => segOf k e
  | .infx _ l operator r => segOf k l ++ segOf (k + numLits l) r ++ opByte operator
  | .intLit _ _ => [OpConstant, k / 256 % 256, k % 256]
  | .unknown => []

theorem litVals_length (n : Node) : (litVals n).length = numLits n := by
  induction n with
  | program e ih => exact ih
  | infx tok l operator r ihl ihr => simp [litVals, numLits, ihl, ihr]
  | intLit tok v => rfl
  | unknown => rfl

/-- Characterization of `Compile`: it always succeeds and appends exactly
the literal values to the pool and the segment `segOf` to the instruction
stream. -/
theorem compile_seg (n : Node) : ∀ c : Compiler,
    c.compile n = .ok ⟨c.instructions ++ segOf c.constants.length n,
      c.constants ++ litVals n⟩ := by
  induction n with
  | program e ih => exact ih
  | infx tok l operator r ihl ihr =>
    intro c
    unfold Compiler.compile
    rw [ihl c]
    simp only []
    rw [ihr]
    simp only [List.length_append, litVals_length]
    by_cases hp : operator = "+"
    · simp [hp, Compiler.emit, segOf, litVals, opByte, List.append_assoc]
    · by_cases hm : operator = "-"
      · simp [hp, hm, Compiler.emit, segOf, litVals, opByte, List.append_assoc]
      · simp [hp, hm, segOf, litVals, opByte, List.append_assoc]
  | intLit tok v =>
    intro c
    unfold Compiler.compile Compiler.emit
    simp [segOf, litVals]
  | unknown =>
    intro c
    simp [Compiler.compile, segOf, litVals]

/-- Decode the embedded operands of the load-constant instructions of an
instruction stream (the encoding of the bytecode tables: opcode `0` carries
two big-endian operand bytes; `OpAdd`/`OpSub` and any other byte are
operand-free). -/
def opndsOf : List Nat → List Nat
  | [] => []
  | 0 :: b1 :: b2 :: rest => (b1 * 256 + b2) :: opndsOf rest
  | _ :: rest => opndsOf rest

/-- The pool indices embedded in `segOf k n`: one per literal, in order,
each silently truncated mod `2^16`. -/
def segOpnds (k : Nat) : Node → List Nat
  | .program e => segOpnds k e
  | .infx _ l _ r => segOpnds k l ++ segOpnds (k + numLits l) r
  | .intLit _ _ => [k % 65536]
  | .unknown => []

theorem opndsOf_seg (n : Node) : ∀ (k : Nat) (tail : List Nat),
    opndsOf (segOf k n ++ tail) = segOpnds k n ++ opndsOf tail := by
  induction n with
  | program e ih => exact ih
  | infx tok l operator r ihl ihr =>
    intro k tail
    show opndsOf ((segOf k l ++ segOf (k + numLits l) r ++ opByte operator)
      ++ tail) = (segOpnds k l ++ segOpnds (k + numLits l) r) ++ opndsOf tail
    rw [List.append_assoc, List.append_assoc, ihl, ihr, List.append_assoc]
    by_cases hp : operator = "+"
    · simp [opByte, hp, opndsOf]
    · by_cases hm : operator = "-"
      · simp [opByte, hp, hm, opndsOf]
      · simp [opByte, hp, hm, opndsOf]
  | intLit tok v =>
    intro k tail
    have harith : (k / 256 % 256) * 256 + k % 256 = k % 65536 := by omega
    show opndsOf (OpConstant :: k / 256 % 256 :: k % 256 :: tail) =
      k % 65536 :: opndsOf tail
    rw [opndsOf, harith]
  | unknown =>
    intro k tail
    rfl

/-- The embedded indices are the pool positions `k, k+1, …`, each reduced
mod `2^16` by the 2-byte truncation in `emit`. -/
theorem segOpnds_mod (n : Node) : ∀ k : Nat,
    segOpnds k n = (List.range' k (numLits n)).map (fun i => i % 65536) := by
  induction n with
  | program e ih => exact ih
  | infx tok l operator r ihl ihr =>
    intro k
    show segOpnds k l ++ segOpnds (k + numLits l) r = _
    rw [ihl, ihr, numLits]
    rw [← List.map_append]
    congr 1
    have h := List.range'_append k (numLits l) (numLits r) 1
    simp only [one_mul, Nat.mul_one] at h
    rw [h, Nat.add_comm (numLits r) (numLits l)]
  | intLit tok v =>
    intro k
    rfl
  | unknown =>
    intro k
    rfl

/-- A left-nested additive chain of literals, as the parser builds them:
`ps` lists, per combination step, the operator token and text, then the
right literal's token and value. -/
def chainT (t0 : Token) (v0 : Int)
    (ps : List ((Token × String) × (Token × Int))) : Node :=
  ps.foldl (fun acc q => .infx q.1.1 acc q.1.2 (.intLit q.2.1 q.2.2))
    (.intLit t0 v0)

theorem numLits_chainT (t0 : Token) (v0 : Int)
    (ps : List ((Token × String) × (Token × Int))) :
    numLits (chainT t0 v0 ps) = 1 + ps.length := by
  suffices h : ∀ (ps : List ((Token × String) × (Token × Int))) (acc : Node),
      numLits (ps.foldl
        (fun acc q => .infx q.1.1 acc q.1.2 (.intLit q.2.1 q.2.2)) acc) =
        numLits acc + ps.length by
    simpa [chainT] using h ps (.intLit t0 v0)
  intro ps
  induction ps with
  | nil => intro acc; simp
  | cons q ps ih =>
    intro acc
    rw [List.foldl_cons, ih]
    simp [numLits]
    omega

/-- `numLits` passes through the program wrapper (stated for rewriting
without unfolding the wrapped node). -/
theorem numLits_program (e : Node) : numLits (.program e) = numLits e := rfl

/-- 65536 identical `+ 0` combination steps. -/
def bigPairs : List ((Token × String) × (Token × Int)) :=
  List.replicate 65536 ((zeroToken, "+"), (zeroToken, 0))

theorem bigPairs_length : bigPairs.length = 65536 := by
  unfold bigPairs
  rw [List.length_replicate]

/-- The concrete 65537-literal chain used to refute the pool bound. -/
def bigChain : Node := chainT zeroToken 0 bigPairs

/-- **C4, counterexample.**  The compiler accepts a tree with 65537 literals:
the produced pool has 65537 > 65536 entries — the 65536-entry limit is not
enforced — and the operand embedded for the constant at pool position 65536
decodes to 0, not 65536: the 16-bit truncation silently wraps. -/
theorem chainT_compile_stats (t0 : Token) (v0 : Int)
    (ps : List ((Token × String) × (Token × Int))) :
    ∃ c', Compiler.new.compile (.program (chainT t0 v0 ps)) = .ok c' ∧
      c'.constants.length = 1 + ps.length ∧
      (opndsOf c'.instructions).getD ps.length 999 = ps.length % 65536 := by
  refine ⟨_, compile_seg _ Compiler.new, ?_, ?_⟩
  · simp [Compiler.new, litVals_length, numLits_program, numLits_chainT]
  · have h := opndsOf_seg (.program (chainT t0 v0 ps)) 0 []
    simp only [List.append_nil, opndsOf] at h
    simp only [Compiler.new, List.nil_append, List.length_nil]
    rw [h, segOpnds_mod, numLits_program, numLits_chainT]
    rw [List.getD_eq_getElem?_getD, List.getElem?_map, List.getElem?_range']
    · simp
    · omega

/-- **C4, counterexample.**  The compiler accepts a tree with 65537 literals:
the produced pool has 65537 > 65536 entries — the 65536-entry limit is not
enforced — and the operand embedded for the constant at pool position 65536
decodes to 0, not 65536: the 16-bit truncation silently wraps. -/
theorem pool_limit_not_enforced :
    ∃ c', Compiler.new.compile (.program bigChain) = .ok c' ∧
      c'.constants.length = 65537 ∧ 65536 < c'.constants.length ∧
      (opndsOf c'.instructions).getD 65536 999 = 0 ∧
      (opndsOf c'.instructions).getD 65536 999 ≠ 65536 := by
  unfold bigChain
  obtain ⟨c', hc, hlen, hopnd⟩ := chainT_compile_stats zeroToken 0 bigPairs
  rw [bigPairs_length] at hlen hopnd
  rw [Nat.mod_self] at hopnd
  exact ⟨c', hc, by omega, by omega, hopnd, by rw [hopnd]; decide⟩

/-- **C4, amended.**  For every tree with at most 65536 literal leaves, every
embedded constant-pool index fits in 16 bits, equals the pool position of the
constant it loads (the decoded operands are exactly `0, 1, …, n-1` and the
pool holds exactly the literals in that order), and the pool stays within
65536 entries.  Beyond 65536 literals nothing is enforced: the pool grows
past the limit and the operands wrap mod 2^16 (see the counterexample). -/
theorem compile_pool_indices (n : Node) (hn : numLits n ≤ 65536) :
    ∃ c', Compiler.new.compile n = .ok c' ∧
      c'.constants = litVals n ∧
      c'.constants.length = numLits n ∧
      c'.constants.length ≤ 65536 ∧
      opndsOf c'.instructions = List.range (numLits n) ∧
      ∀ o ∈ opndsOf c'.instructions, o < 65536 ∧ o < c'.constants.length := by
  refine ⟨_, compile_seg n Compiler.new, ?_, ?_, ?_, ?_, ?_⟩
  · simp [Compiler.new]
  · simp [Compiler.new, litVals_length]
  · simp [Compiler.new, litVals_length, hn]
  · have h := opndsOf_seg n 0 []
    simp only [List.append_nil, opndsOf] at h
    simp only [Compiler.new, List.nil_append, List.length_nil]
    rw [h, segOpnds_mod, List.range_eq_range']
    have hcong : ∀ i ∈ List.range' 0 (numLits n),
        (fun i => i % 65536) i = id i := by
      intro i hi
      have := List.mem_range'.mp hi
      simp only [id]
      omega
    rw [List.map_congr_left hcong, List.map_id]
  · intro o ho
    have h := opndsOf_seg n 0 []
    simp only [List.append_nil, opndsOf] at h
    simp only [Compiler.new, List.nil_append, List.length_nil] at ho
    rw [h, segOpnds_mod] at ho
    obtain ⟨i, hi, rfl⟩ := List.mem_map.mp ho
    have hib := List.mem_range'.mp hi
    have hlt : i % 65536 ≤ i := Nat.mod_le _ _
    constructor
    · exact Nat.mod_lt _ (by omega)
    · simp [Compiler.new, litVals_length]
      omega

/-- Witness for the amended C4 at a one-literal program. -/
theorem compile_pool_indices_witness :
    numLits (.program (.intLit zeroToken 5)) ≤ 65536 ∧
      ∃ c', Compiler.new.compile (.program (.intLit zeroToken 5)) = .ok c' ∧
        c'.constants = litVals (.program (.intLit zeroToken 5)) ∧
        c'.constants.length = numLits (.program (.intLit zeroToken 5)) ∧
        c'.constants.length ≤ 65536 ∧
        opndsOf c'.instructions =
          List.range (numLits (.program (.intLit zeroToken 5))) ∧
        ∀ o ∈ opndsOf c'.instructions, o < 65536 ∧ o < c'.constants.length :=
  ⟨by decide, compile_pool_indices _ (by decide)⟩

/-! ## Compiled chains: code shape and execution

`chainSeg k ops` is the tail of the code a left-nested chain compiles to:
per combination step one load-constant (pool positions `k, k+1, …`, each
truncated to two bytes by `emit`) followed by the operator's opcode. -/

/-- Code for the combination steps of a chain, starting at pool index `k`. -/
def chainSeg (k : Nat) : List String → List Nat
  | [] => []
  | op :: rest =>
    OpConstant :: k / 256 % 256 :: k % 256 :: (opByte op ++ chainSeg (k + 1) rest)

/-- Appending one step to a chain appends one load/op pair to its code. -/
theorem chainSeg_snoc (ops : List String) : ∀ (k : Nat) (op : String),
    chainSeg k (ops ++ [op]) =
      chainSeg k ops ++
        (OpConstant :: (k + ops.length) / 256 % 256 ::
          (k + ops.length) % 256 :: opByte op) := by
  induction ops with
  | nil =>
    intro k op
    simp [chainSeg]
  | cons o ops ih =>
    intro k op
    show chainSeg k ((o :: ops) ++ [op]) = _
    rw [List.cons_append, chainSeg, chainSeg, ih (k + 1) op]
    have harith : k + 1 + ops.length = k + (o :: ops).length := by
      simp
      omega
    rw [harith]
    simp [List.append_assoc]

/-- One combination step unfolds a chain into an infix node. -/
theorem chainT_snoc (t0 : Token) (v0 : Int)
    (ps : List ((Token × String) × (Token × Int)))
    (q : (Token × String) × (Token × Int)) :
    chainT t0 v0 (ps ++ [q]) =
      .infx q.1.1 (chainT t0 v0 ps) q.1.2 (.intLit q.2.1 q.2.2) := by
  simp [chainT, List.foldl_append]

/-- The constants a chain compiles to: the literals, in order. -/
theorem litVals_chainT (t0 : Token) (v0 : Int)
    (ps : List ((Token × String) × (Token × Int))) :
    litVals (chainT t0 v0 ps) =
      GoVal.int v0 :: ps.map (fun q => GoVal.int q.2.2) := by
  induction ps using List.reverseRecOn with
  | nil => rfl
  | append_singleton ps q ih =>
    rw [chainT_snoc]
    show litVals (chainT t0 v0 ps) ++ [GoVal.int q.2.2] = _
    rw [ih]
    simp

/-- The code a chain compiles to: one load for the first literal, then
`chainSeg` over the operators. -/
theorem segOf_chainT (t0 : Token) (v0 : Int)
    (ps : List ((Token × String) × (Token × Int))) : ∀ k,
    segOf k (chainT t0 v0 ps) =
      OpConstant :: k / 256 % 256 :: k % 256 ::
        chainSeg (k + 1) (ps.map (fun q => q.1.2)) := by
  induction ps using List.reverseRecOn with
  | nil => intro k; rfl
  | append_singleton ps q ih =>
    intro k
    rw [chainT_snoc]
    show segOf k (chainT t0 v0 ps) ++
        segOf (k + numLits (chainT t0 v0 ps)) (.intLit q.2.1 q.2.2) ++
        opByte q.1.2 = _
    rw [ih k, numLits_chainT, List.map_append]
    simp only [List.map_cons, List.map_nil]
    rw [chainSeg_snoc]
    have harith : k + (1 + ps.length) =
        k + 1 + (List.map (fun q => q.1.2) ps).length := by
      simp
      omega
    show _ ++ segOf (k + (1 + ps.length)) (.intLit q.2.1 q.2.2) ++ _ = _
    rw [harith]
    simp [segOf, List.append_assoc]

/-- One `Run`-loop step on a load-constant instruction with a valid pool
index and room on the stack. -/
theorem runAuxF_load {f : Nat} {bc : Bytecode} {stack : List GoVal}
    {sp ip b1 b2 : Nat} {tail : List Nat}
    (hdrop : bc.instructions.drop ip = OpConstant :: b1 :: b2 :: tail)
    (hidx : b1 * 256 + b2 < bc.constants.length)
    (hsp : ¬ StackSize ≤ sp) :
    RunAuxF (f + 1) ⟨bc, stack, sp⟩ ip =
      ((RunAuxF f ⟨bc,
          stack.set sp (bc.constants.getD (b1 * 256 + b2) GoVal.nil),
          sp + 1⟩ (ip + 3)).1,
        sp :: (RunAuxF f ⟨bc,
          stack.set sp (bc.constants.getD (b1 * 256 + b2) GoVal.nil),
          sp + 1⟩ (ip + 3)).2) := by
  conv_lhs => rw [RunAuxF]
  rw [hdrop]
  simp [VM.push, hidx, hsp]

/-- One `Run`-loop step on an add/subtract opcode from stack depth 2. -/
theorem runAuxF_binop {f : Nat} {bc : Bytecode} {stack : List GoVal}
    {ip opb : Nat} {tail : List Nat} {a b : Int}
    (hdrop : bc.instructions.drop ip = opb :: tail)
    (hopb : opb = OpAdd ∨ opb = OpSub)
    (hb : stack.getD 1 GoVal.nil = .int b)
    (ha : stack.getD 0 GoVal.nil = .int a) :
    RunAuxF (f + 1) ⟨bc, stack, 2⟩ ip =
      ((RunAuxF f ⟨bc,
          stack.set 0 (.int (if opb = OpAdd then i64add a b else i64sub a b)),
          1⟩ (ip + 1)).1,
        2 :: (RunAuxF f ⟨bc,
          stack.set 0 (.int (if opb = OpAdd then i64add a b else i64sub a b)),
          1⟩ (ip + 1)).2) := by
  conv_lhs => rw [RunAuxF]
  rw [hdrop]
  rw [List.getD_eq_getElem?_getD] at hb ha
  rcases hopb with hopb | hopb
  all_goals
    subst hopb
    simp [VM.pop, VM.push, hb, ha]

/-- Left-to-right evaluation with a value supplied per step: `w 0` is the
first combined literal, and `w` shifts as the chain advances. -/
def foldOpsW (w : Nat → Int) (acc : Int) : List String → Int
  | [] => acc
  | o :: rest =>
    foldOpsW (fun i => w (i + 1))
      (if o = "+" then i64add acc (w 0) else i64sub acc (w 0)) rest

/-- Running the combination tail of a chain: from `sp = 1` with the running
value on the stack bottom, each load/op pair pushes the loaded constant
(depth 2) and immediately folds it (back to depth 1); the run completes
normally with the folded value on the stack bottom, and the observed stack
depths are exactly `1, 2, 1, 2, …, 1`. -/
theorem runAux_chain (ops : List String) :
    ∀ (w : Nat → Int) (bc : Bytecode) (pre : List Nat) (stack : List GoVal)
      (k fuel : Nat) (acc : Int),
      bc.instructions = pre ++ chainSeg k ops →
      (∀ o ∈ ops, o = "+" ∨ o = "-") →
      (∀ i, i < ops.length →
        (k + i) % 65536 < bc.constants.length ∧
        bc.constants.getD ((k + i) % 65536) GoVal.nil = .int (w i)) →
      stack.length = StackSize →
      stack.getD 0 GoVal.nil = .int acc →
      2 * ops.length + 1 ≤ fuel →
      ∃ st' : List GoVal,
        RunAuxF fuel ⟨bc, stack, 1⟩ pre.length =
          (.ok ⟨bc, st', 1⟩, 1 :: (ops.flatMap (fun _ => [2, 1]))) ∧
        st'.length = StackSize ∧
        st'.getD 0 GoVal.nil = .int (foldOpsW w acc ops) := by
  induction ops with
  | nil =>
    intro w bc pre stack k fuel acc hins hops hcs hlen hbot hfuel
    obtain ⟨f, rfl⟩ : ∃ f, fuel = f + 1 := ⟨fuel - 1, by omega⟩
    refine ⟨stack, ?_, hlen, hbot⟩
    have hdrop : bc.instructions.drop pre.length = [] := by
      rw [hins]
      simp [chainSeg]
    simp [RunAuxF, hdrop, List.flatMap, foldOpsW]
  | cons o ops ih =>
    intro w bc pre stack k fuel acc hins hops hcs hlen hbot hfuel
    have hlen1 : (o :: ops).length = ops.length + 1 := rfl
    rw [hlen1] at hfuel
    obtain ⟨f2, rfl⟩ : ∃ f2, fuel = f2 + 1 + 1 := ⟨fuel - 2, by omega⟩
    have hdrop : bc.instructions.drop pre.length =
        OpConstant :: k / 256 % 256 :: k % 256 ::
          (opByte o ++ chainSeg (k + 1) ops) := by
      rw [hins, List.drop_left]
      rfl
    have hk0 := hcs 0 (by simp)
    have hidx : (k + 0) % 65536 = (k / 256 % 256) * 256 + k % 256 := by omega
    rw [hidx] at hk0
    have hsp1 : ¬ StackSize ≤ 1 := by decide
    have hget1 : (stack.set 1 (GoVal.int (w 0))).getD 1 GoVal.nil =
        GoVal.int (w 0) := by
      apply getD_set_self
      omega
    have hget0 : (stack.set 1 (GoVal.int (w 0))).getD 0 GoVal.nil =
        GoVal.int acc := by
      rw [getD_set_ne _ _ _ (by decide)]
      exact hbot
    have hop : o = "+" ∨ o = "-" := hops o (by simp)
    have hcs' : ∀ i, i < ops.length →
        (k + 1 + i) % 65536 < bc.constants.length ∧
        bc.constants.getD ((k + 1 + i) % 65536) GoVal.nil =
          .int ((fun i => w (i + 1)) i) := by
      intro i hi
      have h := hcs (i + 1) (by rw [hlen1]; omega)
      rw [show k + (i + 1) = k + 1 + i from by omega] at h
      exact h
    rcases hop with hop | hop
    all_goals subst hop
    -- the "+" case
    · have hdrop2 : bc.instructions.drop (pre.length + 3) =
          OpAdd :: chainSeg (k + 1) ops := by
        have h3 : pre.length + 3 =
            (pre ++ [OpConstant, k / 256 % 256, k % 256]).length := by simp
        rw [h3, hins,
          show pre ++ chainSeg k ("+" :: ops) =
            (pre ++ [OpConstant, k / 256 % 256, k % 256]) ++
              (OpAdd :: chainSeg (k + 1) ops) from by
            simp [chainSeg, opByte], List.drop_left]
      have hstack2 : ((stack.set 1 (.int (w 0))).set 0
          (.int (i64add acc (w 0)))).length = StackSize := by
        simp [hlen]
      have hbot2 : ((stack.set 1 (.int (w 0))).set 0
          (.int (i64add acc (w 0)))).getD 0 GoVal.nil =
          .int (i64add acc (w 0)) := by
        apply getD_set_self
        simp [hlen]
      obtain ⟨st', hrun, hlen', hbot'⟩ := ih (fun i => w (i + 1)) bc
        (pre ++ [OpConstant, k / 256 % 256, k % 256, OpAdd])
        ((stack.set 1 (.int (w 0))).set 0 (.int (i64add acc (w 0))))
        (k + 1) f2 (i64add acc (w 0))
        (by rw [hins]
            simp [chainSeg, opByte, List.append_assoc])
        (fun o' ho' => hops o' (by simp [ho']))
        hcs' hstack2 hbot2 (by omega)
      refine ⟨st', ?_, hlen', ?_⟩
      · rw [runAuxF_load hdrop hk0.1 hsp1, hk0.2]
        rw [runAuxF_binop hdrop2 (Or.inl rfl) hget1 hget0]
        rw [show pre.length + 3 + 1 =
          (pre ++ [OpConstant, k / 256 % 256, k % 256, OpAdd]).length from
            by simp]
        rw [show (if (OpAdd : Nat) = OpAdd then i64add acc (w 0)
            else i64sub acc (w 0)) = i64add acc (w 0) from by simp]
        rw [hrun]
        simp [List.flatMap_cons]
      · rw [hbot']
        simp [foldOpsW]
    -- the "-" case
    · have hdrop2 : bc.instructions.drop (pre.length + 3) =
          OpSub :: chainSeg (k + 1) ops := by
        have h3 : pre.length + 3 =
            (pre ++ [OpConstant, k / 256 % 256, k % 256]).length := by simp
        rw [h3, hins,
          show pre ++ chainSeg k ("-" :: ops) =
            (pre ++ [OpConstant, k / 256 % 256, k % 256]) ++
              (OpSub :: chainSeg (k + 1) ops) from by
            simp [chainSeg, opByte], List.drop_left]
      have hstack2 : ((stack.set 1 (.int (w 0))).set 0
          (.int (i64sub acc (w 0)))).length = StackSize := by
        simp [hlen]
      have hbot2 : ((stack.set 1 (.int (w 0))).set 0
          (.int (i64sub acc (w 0)))).getD 0 GoVal.nil =
          .int (i64sub acc (w 0)) := by
        apply getD_set_self
        simp [hlen]
      obtain ⟨st', hrun, hlen', hbot'⟩ := ih (fun i => w (i + 1)) bc
        (pre ++ [OpConstant, k / 256 % 256, k % 256, OpSub])
        ((stack.set 1 (.int (w 0))).set 0 (.int (i64sub acc (w 0))))
        (k + 1) f2 (i64sub acc (w 0))
        (by rw [hins]
            simp [chainSeg, opByte, List.append_assoc])
        (fun o' ho' => hops o' (by simp [ho']))
        hcs' hstack2 hbot2 (by omega)
      refine ⟨st', ?_, hlen', ?_⟩
      · rw [runAuxF_load hdrop hk0.1 hsp1, hk0.2]
        rw [runAuxF_binop hdrop2 (Or.inr rfl) hget1 hget0]
        rw [show pre.length + 3 + 1 =
          (pre ++ [OpConstant, k / 256 % 256, k % 256, OpSub]).length from
            by simp]
        rw [show (if (OpSub : Nat) = OpAdd then i64add acc (w 0)
            else i64sub acc (w 0)) = i64sub acc (w 0) from by simp]
        rw [hrun]
        simp [List.flatMap_cons]
      · rw [hbot']
        simp [foldOpsW]

/-- `segOf` passes through the program wrapper. -/
theorem segOf_program (k : Nat) (e : Node) :
    segOf k (.program e) = segOf k e := rfl

/-- `litVals` passes through the program wrapper. -/
theorem litVals_program (e : Node) :
    litVals (.program e) = litVals e := rfl

/-- Each combination step of a valid chain contributes exactly 4 bytes. -/
theorem chainSeg_length (ops : List String)
    (h : ∀ o ∈ ops, o = "+" ∨ o = "-") :
    ∀ k, (chainSeg k ops).length = 4 * ops.length := by
  induction ops with
  | nil => intro k; rfl
  | cons o ops ih =>
    intro k
    have hob : (opByte o).length = 1 := by
      rcases h o (by simp) with ho | ho
      all_goals simp [opByte, ho]
    have := ih (fun o' ho' => h o' (by simp [ho'])) (k + 1)
    simp [chainSeg, hob, this]
    omega

/-- Reading a mapped-to-`GoVal.int` pool at a valid index. -/
theorem getD_map_int (l : List Int) (j : Nat) (h : j < l.length) :
    (l.map GoVal.int).getD j GoVal.nil = GoVal.int (l.getD j 0) := by
  simp [List.getD, List.getElem?_map, List.getElem?_eq_getElem h]

/-- **C9.** For every well-formed additive chain (the trees the parser
builds: a left-nested chain of integer literals combined with `+`/`-`),
whatever the number of literals, running the compiled bytecode on a fresh
VM succeeds: the run never reaches the stack-overflow branch, finishes with
`sp = 1`, and the stack depth observed at every loop step is at most 2 —
the depth trace is exactly `0, 1, 2, 1, 2, 1, …, 1`. -/
theorem compiled_chain_runs_safely (t0 : Token) (v0 : Int)
    (ps : List ((Token × String) × (Token × Int)))
    (hops : ∀ q ∈ ps, q.1.2 = "+" ∨ q.1.2 = "-") :
    ∃ (c' : Compiler) (st' : List GoVal),
      Compiler.new.compile (.program (chainT t0 v0 ps)) = .ok c' ∧
      VM.Run (VM.new c'.bytecode) = .ok ⟨c'.bytecode, st', 1⟩ ∧
      VM.RunTrace (VM.new c'.bytecode) =
        0 :: 1 :: (ps.flatMap (fun _ => [2, 1])) ∧
      (∀ s ∈ VM.RunTrace (VM.new c'.bytecode), s ≤ 2) := by
  have hops' : ∀ o ∈ ps.map (fun q => q.1.2), o = "+" ∨ o = "-" := by
    intro o ho
    obtain ⟨q, hq, rfl⟩ := List.mem_map.mp ho
    exact hops q hq
  have hcomp : Compiler.new.compile (.program (chainT t0 v0 ps)) =
      .ok ⟨segOf 0 (.program (chainT t0 v0 ps)),
        litVals (.program (chainT t0 v0 ps))⟩ := by
    have h := compile_seg (.program (chainT t0 v0 ps)) Compiler.new
    simpa [Compiler.new] using h
  refine ⟨⟨segOf 0 (.program (chainT t0 v0 ps)),
    litVals (.program (chainT t0 v0 ps))⟩, ?_⟩
  -- names for the artifact pieces
  have hins : segOf 0 (.program (chainT t0 v0 ps)) =
      OpConstant :: 0 :: 0 :: chainSeg 1 (ps.map (fun q => q.1.2)) := by
    rw [segOf_program, segOf_chainT]
  have hcons : litVals (.program (chainT t0 v0 ps)) =
      (v0 :: ps.map (fun q => q.2.2)).map GoVal.int := by
    rw [litVals_program, litVals_chainT]
    simp [List.map_map]
  have hclen : (litVals (.program (chainT t0 v0 ps))).length =
      1 + ps.length := by
    rw [litVals_length, numLits_program, numLits_chainT]
  have hIlen : (segOf 0 (.program (chainT t0 v0 ps))).length =
      3 + 4 * ps.length := by
    rw [hins]
    simp [chainSeg_length _ hops']
    omega
  -- the initial load of the first literal
  set bc : Bytecode := ⟨segOf 0 (.program (chainT t0 v0 ps)),
    litVals (.program (chainT t0 v0 ps))⟩ with hbc
  have hdrop0 : bc.instructions.drop 0 =
      OpConstant :: 0 :: 0 :: chainSeg 1 (ps.map (fun q => q.1.2)) := by
    rw [List.drop_zero, hbc]
    exact hins
  have hidx0 : (0 : Nat) * 256 + 0 < bc.constants.length := by
    show 0 * 256 + 0 < (litVals (.program (chainT t0 v0 ps))).length
    rw [hclen]
    omega
  have hsp0 : ¬ StackSize ≤ 0 := by decide
  have hv0 : bc.constants.getD (0 * 256 + 0) GoVal.nil = GoVal.int v0 := by
    show (litVals (.program (chainT t0 v0 ps))).getD (0 * 256 + 0)
      GoVal.nil = GoVal.int v0
    rw [hcons]
    rw [show (0 : Nat) * 256 + 0 = 0 from by omega]
    rfl
  -- the combination tail
  have hchain := runAux_chain (ps.map (fun q => q.1.2))
    (fun i => (v0 :: ps.map (fun q => q.2.2)).getD ((1 + i) % 65536) 0)
    bc [OpConstant, 0, 0]
    ((List.replicate StackSize GoVal.nil).set 0 (GoVal.int v0))
    1 (bc.instructions.length) v0
    (by rw [hbc]
        exact hins)
    hops'
    (by intro i hi
        simp only [List.length_map] at hi
        have hblen : (v0 :: ps.map (fun q => q.2.2)).length = 1 + ps.length := by
          simp
          omega
        have hmod : (1 + i) % 65536 < 1 + ps.length := by omega
        constructor
        · show (1 + i) % 65536 < (litVals (.program (chainT t0 v0 ps))).length
          rw [hclen]
          exact hmod
        · show (litVals (.program (chainT t0 v0 ps))).getD ((1 + i) % 65536)
            GoVal.nil = _
          rw [hcons]
          exact getD_map_int _ _ (by rw [hblen]; exact hmod))
    (by simp)
    (by apply getD_set_self
        simp)
    (by rw [hbc]
        show 2 * (ps.map (fun q => q.1.2)).length + 1 ≤ _
        rw [hIlen]
        simp
        omega)
  obtain ⟨st', hrun, hlen', hbot'⟩ := hchain
  rw [show ([OpConstant, 0, 0] : List Nat).length = 3 from rfl] at hrun
  have hload := @runAuxF_load (bc.instructions.length) bc
    (List.replicate StackSize GoVal.nil) 0 0 0 0
    (chainSeg 1 (ps.map (fun q => q.1.2))) hdrop0 hidx0 hsp0
  rw [hv0] at hload
  simp only [Nat.zero_add] at hload
  refine ⟨st', hcomp, ?_, ?_, ?_⟩
  · show (RunAuxF (bc.instructions.length + 1)
      ⟨bc, List.replicate StackSize GoVal.nil, 0⟩ 0).1 = _
    rw [hload, hrun]
    rfl
  · show (RunAuxF (bc.instructions.length + 1)
      ⟨bc, List.replicate StackSize GoVal.nil, 0⟩ 0).2 = _
    rw [hload, hrun]
    simp only [List.flatMap_map]
  · intro s hs
    have htr : VM.RunTrace (VM.new (Compiler.bytecode
        ⟨segOf 0 (.program (chainT t0 v0 ps)),
          litVals (.program (chainT t0 v0 ps))⟩)) =
        0 :: 1 :: (ps.flatMap (fun _ => [2, 1])) := by
      show (RunAuxF (bc.instructions.length + 1)
        ⟨bc, List.replicate StackSize GoVal.nil, 0⟩ 0).2 = _
      rw [hload, hrun]
      simp only [List.flatMap_map]
    rw [htr] at hs
    simp only [List.mem_cons, List.mem_flatMap] at hs
    rcases hs with rfl | rfl | ⟨q, _, hq⟩
    · omega
    · omega
    · simp at hq
      omega

/-- Witness for C9 at a concrete two-literal chain. -/
theorem compiled_chain_runs_safely_witness :
    (∀ q ∈ [((zeroToken, "+"), (zeroToken, (2 : Int)))],
      q.1.2 = "+" ∨ q.1.2 = "-") ∧
    ∃ (c' : Compiler) (st' : List GoVal),
      Compiler.new.compile (.program (chainT zeroToken 1
        [((zeroToken, "+"), (zeroToken, 2))])) = .ok c' ∧
      VM.Run (VM.new c'.bytecode) = .ok ⟨c'.bytecode, st', 1⟩ ∧
      VM.RunTrace (VM.new c'.bytecode) =
        0 :: 1 :: ([((zeroToken, "+"), (zeroToken, (2 : Int)))].flatMap
          (fun _ => [2, 1])) ∧
      (∀ s ∈ VM.RunTrace (VM.new c'.bytecode), s ≤ 2) :=
  ⟨by decide, compiled_chain_runs_safely zeroToken 1
    [((zeroToken, "+"), (zeroToken, 2))] (by decide)⟩

/-! ## C3: escape sequences in character and string literals

The claim asserts all six of `\n \t \r \' \" \\` decode in **both** literal
forms.  The code supports only five in each: `readChar` has no case for
`\"` and `readString` has no case for `\'` — each panics.  The
counterexample exhibits both; the amended theorem states exactly what the
code does. -/

/-- The escape table of `readChar`: the five supported escapes. -/
def charEscs : List (Char × Char) :=
  [('n', '\n'), ('t', '\t'), ('r', '\r'), ('\'', '\''), ('\\', '\\')]

/-- The escape table of `readString`: the five supported escapes. -/
def strEscs : List (Char × Char) :=
  [('n', '\n'), ('t', '\t'), ('r', '\r'), ('"', '"'), ('\\', '\\')]

/-- **C3, counterexample.**  `'\"'` does not lex to a char token holding
`"` — the lexer panics on the escape; symmetrically `"\'"` panics instead
of lexing to a string holding `'`. -/
theorem escape_six_in_both_counterexample :
    (Lexer.new "'\\\"'").NextToken =
        .error "invalid escape character in char literal" ∧
      (Lexer.new "\"\\'\"").NextToken =
        .error "invalid escape character in string literal" := by
  decide

/-- **C3(a), amended.**  Each of the five escapes `\n \t \r \' \\` decodes
inside a character literal to its escaped character, for any following
input. -/
theorem charlit_escapes_decode (e d : Char) (hmem : (e, d) ∈ charEscs)
    (rest : List Char) (ln col : Nat) :
    (Lexer.mk ('\'' :: '\\' :: e :: '\'' :: rest) 0 ln col).NextToken =
      .ok (⟨.CharConst, String.mk [d], ln, col⟩,
        ⟨'\'' :: '\\' :: e :: '\'' :: rest, 4, ln, col + 4⟩) := by
  fin_cases hmem
  all_goals
    simp [Lexer.NextToken, Lexer.skipWhitespace, skipWhitespaceF,
      Lexer.readChar, Lexer.advance, Lexer.currentChar, isGoSpace,
      isGoLetter, isGoDigit]

/-- **C3(b), amended.**  Any other escape character in a character literal —
including `\"` — is a fatal panic, not a returned token. -/
theorem charlit_bad_escape_panics (e : Char)
    (hmem : ¬ (e = 'n' ∨ e = 't' ∨ e = 'r' ∨ e = '\'' ∨ e = '\\'))
    (rest : List Char) (ln col : Nat) :
    (Lexer.mk ('\'' :: '\\' :: e :: rest) 0 ln col).NextToken =
      .error "invalid escape character in char literal" := by
  push_neg at hmem
  obtain ⟨hn, ht, hr, hq, hb⟩ := hmem
  simp [Lexer.NextToken, Lexer.skipWhitespace, skipWhitespaceF,
    Lexer.readChar, Lexer.advance, Lexer.currentChar, isGoSpace,
    isGoLetter, isGoDigit, hn, ht, hr, hq, hb]

/-- **C3(c), amended.**  A character literal without its closing quote is a
fatal panic. -/
theorem charlit_unterminated_panics (c d : Char) (hc : c ≠ '\\')
    (hd : d ≠ '\'') (rest : List Char) (ln col : Nat) :
    (Lexer.mk ('\'' :: c :: d :: rest) 0 ln col).NextToken =
      .error "unterminated char literal" := by
  simp [Lexer.NextToken, Lexer.skipWhitespace, skipWhitespaceF,
    Lexer.readChar, Lexer.advance, Lexer.currentChar, isGoSpace,
    isGoLetter, isGoDigit, hc, hd]

/-- **C3(d), amended.**  Each of the five escapes `\n \t \r \" \\` decodes
inside a string literal to its escaped character. -/
theorem strlit_escapes_decode (e d : Char) (hmem : (e, d) ∈ strEscs)
    (ln col : Nat) :
    (Lexer.mk ('"' :: '\\' :: e :: '"' :: []) 0 ln col).NextToken =
      .ok (⟨.STRING, String.mk [d], ln, col⟩,
        ⟨'"' :: '\\' :: e :: '"' :: [], 4, ln, col + 4⟩) := by
  fin_cases hmem
  all_goals
    simp [Lexer.NextToken, Lexer.skipWhitespace, skipWhitespaceF,
      Lexer.readString, readStringF, Lexer.advance, Lexer.currentChar,
      isGoSpace, isGoLetter, isGoDigit]

/-- **C3(e), amended.**  Any other escape character in a string literal —
including `\'` — is a fatal panic. -/
theorem strlit_bad_escape_panics (e : Char)
    (hmem : ¬ (e = 'n' ∨ e = 't' ∨ e = 'r' ∨ e = '"' ∨ e = '\\'))
    (rest : List Char) (ln col : Nat) :
    (Lexer.mk ('"' :: '\\' :: e :: rest) 0 ln col).NextToken =
      .error "invalid escape character in string literal" := by
  push_neg at hmem
  obtain ⟨hn, ht, hr, hq, hb⟩ := hmem
  simp [Lexer.NextToken, Lexer.skipWhitespace, skipWhitespaceF,
    Lexer.readString, readStringF, Lexer.advance, Lexer.currentChar,
    isGoSpace, isGoLetter, isGoDigit, hn, ht, hr, hq, hb]

/-- The `readString` loop walks over ordinary characters (no quote, no
backslash, no NUL), accumulating them, until the end of input. -/
theorem readStringF_ordinary (cs : List Char) :
    ∀ (acc : List Char) (pre : List Char) (ln col fuel : Nat),
      (∀ c ∈ cs, ¬ c = '"' ∧ ¬ c = '\\' ∧ ¬ c = '\x00') →
      cs.length + 1 ≤ fuel →
      ∃ ln2 col2, readStringF fuel ⟨pre ++ cs, pre.length, ln, col⟩ acc =
        .ok (acc ++ cs, ⟨pre ++ cs, pre.length + cs.length, ln2, col2⟩) := by
  induction cs with
  | nil =>
    intro acc pre ln col fuel hcs hfuel
    obtain ⟨f, rfl⟩ : ∃ f, fuel = f + 1 := ⟨fuel - 1, by omega⟩
    refine ⟨ln, col, ?_⟩
    have hcur : (Lexer.mk pre pre.length ln col).currentChar = '\x00' := by
      apply currentChar_of_le
      simp
    simp [readStringF, hcur]
  | cons c cs ih =>
    intro acc pre ln col fuel hcs hfuel
    obtain ⟨f, rfl⟩ : ∃ f, fuel = f + 1 := ⟨fuel - 1, by simp at hfuel; omega⟩
    obtain ⟨h1, h2, h3⟩ := hcs c (by simp)
    have hcur : (Lexer.mk (pre ++ c :: cs) pre.length ln col).currentChar =
        c := by
      show (pre ++ c :: cs).getD pre.length '\x00' = c
      have := getD_append_off pre (c :: cs) '\x00' 0
      simpa using this
    have hstep : readStringF (f + 1)
        ⟨pre ++ c :: cs, pre.length, ln, col⟩ acc =
        readStringF f
          (Lexer.advance ⟨pre ++ c :: cs, pre.length, ln, col⟩)
          (acc ++ [c]) := by
      conv_lhs => rw [readStringF]
      simp [hcur, h1, h2, h3]
    have hl2 : Lexer.advance ⟨pre ++ c :: cs, pre.length, ln, col⟩ =
        ⟨(pre ++ [c]) ++ cs, (pre ++ [c]).length,
          (Lexer.advance ⟨pre ++ c :: cs, pre.length, ln, col⟩).line,
          (Lexer.advance ⟨pre ++ c :: cs, pre.length, ln, col⟩).column⟩ := by
      simp [Lexer.advance]
    obtain ⟨ln2, col2, hrec⟩ := ih (acc ++ [c]) (pre ++ [c])
      (Lexer.advance ⟨pre ++ c :: cs, pre.length, ln, col⟩).line
      (Lexer.advance ⟨pre ++ c :: cs, pre.length, ln, col⟩).column f
      (fun c' hc' => hcs c' (by simp [hc'])) (by simp at hfuel ⊢; omega)
    refine ⟨ln2, col2, ?_⟩
    rw [hstep, hl2, hrec]
    simp [List.append_assoc]
    omega

/-- **C3(f), amended.**  A string literal never closed before the end of
input is a fatal panic. -/
theorem strlit_unterminated_panics (cs : List Char)
    (hcs : ∀ c ∈ cs, ¬ c = '"' ∧ ¬ c = '\\' ∧ ¬ c = '\x00')
    (ln col : Nat) :
    (Lexer.mk ('"' :: cs) 0 ln col).NextToken =
      .error "unterminated string literal" := by
  obtain ⟨ln2, col2, hrec⟩ := readStringF_ordinary cs [] ['"'] ln (col + 1)
    (('"' :: cs : List Char).length + 1) hcs (by simp)
  simp only [List.singleton_append, List.length_singleton, List.length_cons,
    List.length_nil, Nat.zero_add, List.nil_append] at hrec
  have hend1 : ('"' :: cs : List Char)[1 + cs.length]?.getD '\x00' =
      '\x00' := by
    rw [List.getElem?_eq_none (by simp; omega)]
    rfl
  have hend2 : ('"' :: cs : List Char)[cs.length + 1]?.getD '\x00' =
      '\x00' := by
    rw [List.getElem?_eq_none (by simp)]
    rfl
  simp [Lexer.NextToken, Lexer.skipWhitespace, skipWhitespaceF,
    Lexer.readString, Lexer.advance, Lexer.currentChar, isGoSpace,
    isGoLetter, isGoDigit, hrec, hend1, hend2]

/-- **C3, amended.**  Inside character literals exactly the five escapes
`\n \t \r \' \\` decode to their escaped characters, and inside string
literals exactly the five escapes `\n \t \r \" \\` do; any other escape
character (in particular `\"` in a character literal and `\'` in a string
literal), a missing closing quote on a character literal, and a string
literal left open to the end of input are fatal, unrecoverable panics that
abort the pipeline — not returned error values. -/
theorem escapes_amended :
    (∀ e d, (e, d) ∈ charEscs → ∀ (rest : List Char) (ln col : Nat),
      (Lexer.mk ('\'' :: '\\' :: e :: '\'' :: rest) 0 ln col).NextToken =
        .ok (⟨.CharConst, String.mk [d], ln, col⟩,
          ⟨'\'' :: '\\' :: e :: '\'' :: rest, 4, ln, col + 4⟩)) ∧
    (∀ e, ¬ (e = 'n' ∨ e = 't' ∨ e = 'r' ∨ e = '\'' ∨ e = '\\') →
      ∀ (rest : List Char) (ln col : Nat),
      (Lexer.mk ('\'' :: '\\' :: e :: rest) 0 ln col).NextToken =
        .error "invalid escape character in char literal") ∧
    (∀ c d, c ≠ '\\' → d ≠ '\'' → ∀ (rest : List Char) (ln col : Nat),
      (Lexer.mk ('\'' :: c :: d :: rest) 0 ln col).NextToken =
        .error "unterminated char literal") ∧
    (∀ e d, (e, d) ∈ strEscs → ∀ (ln col : Nat),
      (Lexer.mk ('"' :: '\\' :: e :: '"' :: []) 0 ln col).NextToken =
        .ok (⟨.STRING, String.mk [d], ln, col⟩,
          ⟨'"' :: '\\' :: e :: '"' :: [], 4, ln, col + 4⟩)) ∧
    (∀ e, ¬ (e = 'n' ∨ e = 't' ∨ e = 'r' ∨ e = '"' ∨ e = '\\') →
      ∀ (rest : List Char) (ln col : Nat),
      (Lexer.mk ('"' :: '\\' :: e :: rest) 0 ln col).NextToken =
        .error "invalid escape character in string literal") ∧
    (∀ cs, (∀ c ∈ cs, ¬ c = '"' ∧ ¬ c = '\\' ∧ ¬ c = '\x00') →
      ∀ (ln col : Nat),
      (Lexer.mk ('"' :: cs) 0 ln col).NextToken =
        .error "unterminated string literal") :=
  ⟨charlit_escapes_decode,
    fun e he rest ln col => charlit_bad_escape_panics e he rest ln col,
    fun c d hc hd rest ln col =>
      charlit_unterminated_panics c d hc hd rest ln col,
    strlit_escapes_decode,
    fun e he rest ln col => strlit_bad_escape_panics e he rest ln col,
    fun cs hcs ln col => strlit_unterminated_panics cs hcs ln col⟩

/-- Witness for the amended C3 at concrete inputs, one per conjunct. -/
theorem escapes_amended_witness :
    (Lexer.mk ('\'' :: '\\' :: 'n' :: '\'' :: []) 0 1 1).NextToken =
        .ok (⟨.CharConst, String.mk ['\n'], 1, 1⟩,
          ⟨'\'' :: '\\' :: 'n' :: '\'' :: [], 4, 1, 1 + 4⟩) ∧
      (Lexer.mk ('\'' :: '\\' :: '"' :: ['\'']) 0 1 1).NextToken =
        .error "invalid escape character in char literal" ∧
      (Lexer.mk ('\'' :: 'a' :: 'b' :: []) 0 1 1).NextToken =
        .error "unterminated char literal" ∧
      (Lexer.mk ('"' :: '\\' :: '\'' :: ['"']) 0 1 1).NextToken =
        .error "invalid escape character in string literal" ∧
      (Lexer.mk ('"' :: ['a']) 0 1 1).NextToken =
        .error "unterminated string literal" :=
  ⟨escapes_amended.1 'n' '\n' (by decide) [] 1 1,
    escapes_amended.2.1 '"' (by decide) ['\''] 1 1,
    escapes_amended.2.2.1 'a' 'b' (by decide) (by decide) [] 1 1,
    escapes_amended.2.2.2.2.1 '\'' (by decide) ['"'] 1 1,
    escapes_amended.2.2.2.2.2 ['a'] (by decide) 1 1⟩

/-! ## C1: end-to-end evaluation of additive integer sources

The claim quantifies over sources made of decimal integer literals
separated by `+`/`-` and whitespace and asserts the pipeline result equals
their strict left-to-right evaluation.  It fails as stated: the parser
calls `strconv.ParseInt(v, 0, 64)` with base 0, so a digit run with a
leading `0` is read as octal — `"017"` evaluates to 15, not 17.  The
counterexample exhibits this; the amended theorem proves the property for
canonically written decimal literals (no leading zero except `"0"`
itself), each below `2^63`, with fewer than 65536 combination steps, under
the VM's 64-bit wraparound arithmetic. -/

/-- The value of a run of decimal digits, accumulated onto `n` (the
accumulator form of the base-10 digit loop; `48 = '0'.toNat`). -/
def digitsValFrom (n : Nat) (ds : List Char) : Nat :=
  ds.foldl (fun m c => m * 10 + (c.toNat - 48)) n

/-- The decimal value of a run of digit characters. -/
def digitsVal (ds : List Char) : Nat := digitsValFrom 0 ds

theorem digitsValFrom_cons (n : Nat) (c : Char) (ds : List Char) :
    digitsValFrom n (c :: ds) =
      digitsValFrom (n * 10 + (c.toNat - 48)) ds := rfl

/-- The digit loop only grows its accumulator. -/
theorem digitsValFrom_le (ds : List Char) :
    ∀ n : Nat, n ≤ digitsValFrom n ds := by
  induction ds with
  | nil => intro n; exact Nat.le_refl n
  | cons c ds ih =>
    intro n
    rw [digitsValFrom_cons]
    exact Nat.le_trans (by omega) (ih _)

/-- Numeric bounds of a decimal digit character. -/
theorem isGoDigit_toNat {c : Char} (h : isGoDigit c) :
    48 ≤ c.toNat ∧ c.toNat ≤ 57 := by
  unfold isGoDigit at h
  obtain ⟨h1, h2⟩ := h
  rw [Char.le_def] at h1 h2
  exact ⟨h1, h2⟩

/-- A decimal digit character is not whitespace, not a letter, and not any
of the characters the tokenizer treats specially. -/
theorem isGoDigit_props {c : Char} (h : isGoDigit c) :
    ¬ isGoSpace c ∧ ¬ isGoLetter c ∧ ¬ (c = '\x00') ∧ ¬ (c = '\'') ∧
      ¬ (c = '"') ∧ ¬ (c = '+') ∧ ¬ (c = '-') ∧ ¬ (c = '_') := by
  have ht := isGoDigit_toNat h
  refine ⟨?_, ?_, ?_, ?_, ?_, ?_, ?_, ?_⟩
  · intro hs
    unfold isGoSpace at hs
    rcases hs with rfl | rfl | rfl | rfl | rfl | rfl <;>
      exact absurd ht (by decide)
  · intro hl
    unfold isGoLetter at hl
    rcases hl with ⟨h1, h2⟩ | ⟨h1, h2⟩
    · rw [Char.le_def] at h1
      have h1' : 97 ≤ c.toNat := h1
      omega
    · rw [Char.le_def] at h1
      have h1' : 65 ≤ c.toNat := h1
      omega
  · intro he; subst he; exact absurd ht (by decide)
  · intro he; subst he; exact absurd ht (by decide)
  · intro he; subst he; exact absurd ht (by decide)
  · intro he; subst he; exact absurd ht (by decide)
  · intro he; subst he; exact absurd ht (by decide)
  · intro he; subst he; exact absurd ht (by decide)

/-- Whitespace characters are not digits and not the end marker. -/
theorem isGoSpace_props {c : Char} (h : isGoSpace c) :
    ¬ isGoDigit c ∧ ¬ (c = '\x00') := by
  unfold isGoSpace at h
  rcases h with rfl | rfl | rfl | rfl | rfl | rfl <;> exact ⟨by decide, by decide⟩

/-- The `ParseUint` digit loop on pure decimal digits whose total value is
in range: it accumulates exactly the decimal value and sees no
underscore. -/
theorem parseUintDigits_digits (ds : List Char) :
    ∀ n : Nat, (∀ c ∈ ds, isGoDigit c) →
      digitsValFrom n ds ≤ 2 ^ 64 - 1 →
      parseUintDigits 10 n false ds = some (digitsValFrom n ds, false) := by
  induction ds with
  | nil => intro n _ _; rfl
  | cons c ds ih =>
    intro n hds hbound
    have hc := hds c (by simp)
    have ht := isGoDigit_toNat hc
    have hprops := isGoDigit_props hc
    rw [digitsValFrom_cons] at hbound ⊢
    have hrest := digitsValFrom_le ds (n * 10 + (c.toNat - 48))
    have h48 : '0'.toNat = 48 := rfl
    have h_ : ¬ (c = '_') := hprops.2.2.2.2.2.2.2
    have hdig : '0' ≤ c ∧ c ≤ '9' := hc
    have hd10 : ¬ ((10 : Nat) ≤ c.toNat - 48) := by omega
    have hcut : ¬ ((2 ^ 64 - 1) / 10 + 1 ≤ n) := by omega
    have hov : ¬ (2 ^ 64 - 1 < n * 10 + (c.toNat - 48)) := by omega
    rw [parseUintDigits, if_neg h_]
    simp only [if_pos hdig, h48]
    rw [if_neg hd10, if_neg hcut, if_neg hov]
    exact ih _ (fun c' hc' => hds c' (by simp [hc'])) hbound

/-- `ParseUint` with base detection, on a canonical decimal-digit run:
base 10 is selected and the digits accumulate to the decimal value. -/
theorem goParseUint_canonical (ds : List Char) (hne : ds ≠ [])
    (hds : ∀ c ∈ ds, isGoDigit c)
    (hcanon : ds = ['0'] ∨ ds.headD '0' ≠ '0')
    (hbound : digitsVal ds ≤ 2 ^ 64 - 1) :
    goParseUint ds = some (digitsVal ds) := by
  rcases hcanon with rfl | hh
  · decide
  · obtain ⟨c, rest, rfl⟩ : ∃ c rest, ds = c :: rest := by
      cases ds with
      | nil => exact absurd rfl hne
      | cons c rest => exact ⟨c, rest, rfl⟩
    have hc0 : ¬ (c = '0') := by simpa using hh
    have hpd := parseUintDigits_digits (c :: rest) 0 hds hbound
    cases rest with
    | nil =>
      unfold goParseUint
      simp [hc0, hpd, digitsVal]
    | cons c1 rest1 =>
      cases rest1 with
      | nil =>
        unfold goParseUint
        simp [hc0, hpd, digitsVal]
      | cons c2 rest2 =>
        unfold goParseUint
        simp [hc0, hpd, digitsVal]

/-- `ParseInt(s, 0, 64)` on a canonical decimal literal below `2^63`
succeeds with its decimal value. -/
theorem goParseIntStr_canonical (ds : List Char) (hne : ds ≠ [])
    (hds : ∀ c ∈ ds, isGoDigit c)
    (hcanon : ds = ['0'] ∨ ds.headD '0' ≠ '0')
    (hbound : digitsVal ds < 2 ^ 63) :
    goParseIntStr (String.mk ds) = some (digitsVal ds : Int) := by
  obtain ⟨c, rest, rfl⟩ : ∃ c rest, ds = c :: rest := by
    cases ds with
    | nil => exact absurd rfl hne
    | cons c rest => exact ⟨c, rest, rfl⟩
  have hprops := isGoDigit_props (hds c (by simp))
  have hu := goParseUint_canonical (c :: rest) hne hds hcanon (by omega)
  have hle : ¬ (2 ^ 63 ≤ digitsVal (c :: rest)) := by omega
  show goParseInt (c :: rest) = some (digitsVal (c :: rest) : Int)
  unfold goParseInt
  simp [hprops.2.2.2.2.2.1, hprops.2.2.2.2.2.2.1, hu, hle]
  omega

theorem getD_zero_headD (l : List Char) (d : Char) : l.getD 0 d = l.headD d := by
  cases l <;> rfl

/-- `advance` keeps the input and bumps the position; line/column move to
some values this development never inspects. -/
theorem advance_fields (i : List Char) (p ln col : Nat) :
    ∃ A B, (Lexer.mk i p ln col).advance = ⟨i, p + 1, A, B⟩ :=
  ⟨_, _, rfl⟩

/-- `skipWhitespace` walks over exactly a whitespace run: started at its
left end with enough fuel, it stops at the first non-whitespace character
(or the end of input). -/
theorem skipWS_run (ws : List Char) :
    ∀ (pre rest : List Char) (ln col fuel : Nat),
      (∀ c ∈ ws, isGoSpace c) →
      ¬ isGoSpace (rest.headD '\x00') →
      ws.length + 1 ≤ fuel →
      ∃ A B, skipWhitespaceF fuel ⟨pre ++ ws ++ rest, pre.length, ln, col⟩ =
        ⟨pre ++ ws ++ rest, pre.length + ws.length, A, B⟩ := by
  induction ws with
  | nil =>
    intro pre rest ln col fuel hws hrest hfuel
    obtain ⟨f, rfl⟩ : ∃ f, fuel = f + 1 := ⟨fuel - 1, by omega⟩
    have hcur : (⟨pre ++ [] ++ rest, pre.length, ln, col⟩ : Lexer).currentChar =
        rest.headD '\x00' := by
      show (pre ++ [] ++ rest).getD pre.length '\x00' = _
      rw [List.append_nil]
      have h := getD_append_off pre rest '\x00' 0
      rw [Nat.add_zero] at h
      rw [h, getD_zero_headD]
    refine ⟨ln, col, ?_⟩
    rw [skipWhitespaceF, if_neg (by rw [hcur]; exact hrest)]
    simp
  | cons w ws ih =>
    intro pre rest ln col fuel hws hrest hfuel
    obtain ⟨f, rfl⟩ : ∃ f, fuel = f + 1 := ⟨fuel - 1, by omega⟩
    have hcur : (⟨pre ++ (w :: ws) ++ rest, pre.length, ln, col⟩ :
        Lexer).currentChar = w := by
      show (pre ++ (w :: ws) ++ rest).getD pre.length '\x00' = w
      rw [List.append_assoc]
      have h := getD_append_off pre ((w :: ws) ++ rest) '\x00' 0
      rw [Nat.add_zero] at h
      rw [h]
      rfl
    rw [skipWhitespaceF, if_pos (by rw [hcur]; exact hws w (by simp))]
    obtain ⟨A0, B0, hadv⟩ :=
      advance_fields (pre ++ (w :: ws) ++ rest) pre.length ln col
    rw [hadv]
    have hshape : (⟨pre ++ (w :: ws) ++ rest, pre.length + 1, A0, B0⟩ : Lexer) =
        ⟨(pre ++ [w]) ++ ws ++ rest, (pre ++ [w]).length, A0, B0⟩ := by
      simp
    rw [hshape]
    obtain ⟨A, B, hrun⟩ := ih (pre ++ [w]) rest A0 B0 f
      (fun c hc => hws c (by simp [hc])) hrest
      (by simp only [List.length_cons] at hfuel; omega)
    refine ⟨A, B, ?_⟩
    rw [hrun]
    have harith : (pre ++ [w]).length + ws.length =
        pre.length + (w :: ws).length := by
      simp
      omega
    simp only [harith]
    simp

/-- The digit-scanning loop walks over exactly a digit run. -/
theorem scanDigits_run (ds : List Char) :
    ∀ (pre rest : List Char) (ln col fuel : Nat),
      (∀ c ∈ ds, isGoDigit c) →
      ¬ isGoDigit (rest.headD '\x00') →
      ds.length + 1 ≤ fuel →
      ∃ A B, scanDigitsF fuel ⟨pre ++ ds ++ rest, pre.length, ln, col⟩ =
        ⟨pre ++ ds ++ rest, pre.length + ds.length, A, B⟩ := by
  induction ds with
  | nil =>
    intro pre rest ln col fuel hds hrest hfuel
    obtain ⟨f, rfl⟩ : ∃ f, fuel = f + 1 := ⟨fuel - 1, by omega⟩
    have hcur : (⟨pre ++ [] ++ rest, pre.length, ln, col⟩ : Lexer).currentChar =
        rest.headD '\x00' := by
      show (pre ++ [] ++ rest).getD pre.length '\x00' = _
      rw [List.append_nil]
      have h := getD_append_off pre rest '\x00' 0
      rw [Nat.add_zero] at h
      rw [h, getD_zero_headD]
    refine ⟨ln, col, ?_⟩
    rw [scanDigitsF, if_neg (by rw [hcur]; exact hrest)]
    simp
  | cons w ws ih =>
    intro pre rest ln col fuel hds hrest hfuel
    obtain ⟨f, rfl⟩ : ∃ f, fuel = f + 1 := ⟨fuel - 1, by omega⟩
    have hcur : (⟨pre ++ (w :: ws) ++ rest, pre.length, ln, col⟩ :
        Lexer).currentChar = w := by
      show (pre ++ (w :: ws) ++ rest).getD pre.length '\x00' = w
      rw [List.append_assoc]
      have h := getD_append_off pre ((w :: ws) ++ rest) '\x00' 0
      rw [Nat.add_zero] at h
      rw [h]
      rfl
    rw [scanDigitsF, if_pos (by rw [hcur]; exact hds w (by simp))]
    obtain ⟨A0, B0, hadv⟩ :=
      advance_fields (pre ++ (w :: ws) ++ rest) pre.length ln col
    rw [hadv]
    have hshape : (⟨pre ++ (w :: ws) ++ rest, pre.length + 1, A0, B0⟩ : Lexer) =
        ⟨(pre ++ [w]) ++ ws ++ rest, (pre ++ [w]).length, A0, B0⟩ := by
      simp
    rw [hshape]
    obtain ⟨A, B, hrun⟩ := ih (pre ++ [w]) rest A0 B0 f
      (fun c hc => hds c (by simp [hc])) hrest
      (by simp only [List.length_cons] at hfuel; omega)
    refine ⟨A, B, ?_⟩
    rw [hrun]
    have harith : (pre ++ [w]).length + ws.length =
        pre.length + (w :: ws).length := by
      simp
      omega
    simp only [harith]
    simp

/-- `readNumber` started at a digit run scans exactly that run and returns
it as the NUMBER token's text. -/
theorem readNumber_run (ds pre rest : List Char)
    (hds : ∀ c ∈ ds, isGoDigit c)
    (hrest : ¬ isGoDigit (rest.headD '\x00')) (ln col : Nat) :
    ∃ A B, Lexer.readNumber ⟨pre ++ ds ++ rest, pre.length, ln, col⟩ =
      (⟨.NUMBER, String.mk ds, ln, col⟩,
        ⟨pre ++ ds ++ rest, pre.length + ds.length, A, B⟩) := by
  have hfuel : ds.length + 1 ≤ (pre ++ ds ++ rest).length + 1 := by
    simp
    omega
  obtain ⟨A, B, hscan⟩ := scanDigits_run ds pre rest ln col
    ((pre ++ ds ++ rest).length + 1) hds hrest hfuel
  refine ⟨A, B, ?_⟩
  simp only [Lexer.readNumber]
  rw [hscan]
  have hslice : strSlice (pre ++ ds ++ rest) pre.length
      (pre.length + ds.length) = String.mk ds := by
    unfold strSlice
    rw [List.append_assoc, List.drop_left, Nat.add_sub_cancel_left,
      List.take_left]
  rw [hslice]

/-- The token kind of an additive operator character. -/
def opType (c : Char) : TokenType := if c = '+' then .PLUS else .MINUS

/-- The token text of an additive operator character. -/
def opStr (c : Char) : String := if c = '+' then "+" else "-"

/-- `NextToken` on trailing whitespace: skip it and deliver the EOF
marker.  The lexer state is passed as the equations `hI`/`hP` so the lemma
applies to whatever syntactic form a caller's state is in. -/
theorem nextToken_trailingWS (pre ws I : List Char) (P : Nat)
    (hI : I = pre ++ ws) (hP : P = pre.length)
    (hws : ∀ c ∈ ws, isGoSpace c) (ln col : Nat) :
    ∃ A B, Lexer.NextToken ⟨I, P, ln, col⟩ =
      .ok (⟨.EOF, "", A, B⟩, ⟨I, P + ws.length, A, B⟩) := by
  subst hI hP
  obtain ⟨A, B, hskip⟩ := skipWS_run ws pre [] ln col
    ((pre ++ ws).length + 1) hws (by decide)
    (by simp)
  rw [show (pre ++ ws ++ [] : List Char) = pre ++ ws from by simp] at hskip
  refine ⟨A, B, ?_⟩
  simp only [Lexer.NextToken, Lexer.skipWhitespace]
  rw [hskip]
  have hcur : (⟨pre ++ ws, pre.length + ws.length, A, B⟩ : Lexer).currentChar =
      '\x00' :=
    currentChar_of_le (by simp)
  simp [hcur]

/-- `NextToken` on whitespace followed by an operator character: skip the
whitespace, deliver the one-character operator token, advance past it. -/
theorem nextToken_op (op : Char) (hop : op = '+' ∨ op = '-')
    (pre ws rest I : List Char) (P : Nat)
    (hI : I = pre ++ ws ++ op :: rest) (hP : P = pre.length)
    (hws : ∀ c ∈ ws, isGoSpace c) (ln col : Nat) :
    ∃ A B C D,
      Lexer.NextToken ⟨I, P, ln, col⟩ =
        .ok (⟨opType op, opStr op, A, B⟩, ⟨I, P + ws.length + 1, C, D⟩) := by
  subst hI hP
  have hns : ¬ isGoSpace ((op :: rest).headD '\x00') := by
    rcases hop with rfl | rfl <;> (simp only [List.headD_cons]; decide)
  obtain ⟨A, B, hskip⟩ := skipWS_run ws pre (op :: rest) ln col
    ((pre ++ ws ++ op :: rest).length + 1) hws hns (by simp; omega)
  have hcur : (⟨pre ++ ws ++ op :: rest, pre.length + ws.length, A, B⟩ :
      Lexer).currentChar = op := by
    show (pre ++ ws ++ op :: rest).getD (pre.length + ws.length) '\x00' = op
    have h := getD_append_off (pre ++ ws) (op :: rest) '\x00' 0
    rw [Nat.add_zero] at h
    rw [show pre.length + ws.length = (pre ++ ws).length from by simp, h]
    rfl
  obtain ⟨C, D, hadv⟩ :=
    advance_fields (pre ++ ws ++ op :: rest) (pre.length + ws.length) A B
  refine ⟨A, B, C, D, ?_⟩
  simp only [Lexer.NextToken, Lexer.skipWhitespace]
  rw [hskip, hcur]
  rcases hop with rfl | rfl
  · rw [if_neg (by decide), if_neg (by decide), if_neg (by decide),
      if_neg (by decide), if_neg (by decide), hadv]
    rfl
  · rw [if_neg (by decide), if_neg (by decide), if_neg (by decide),
      if_neg (by decide), if_neg (by decide), hadv]
    rfl

/-- `NextToken` on whitespace followed by a digit run (with no digit right
after the run): skip the whitespace, deliver the NUMBER token holding the
run, stop right after it. -/
theorem nextToken_number (ds pre ws rest I : List Char) (P : Nat)
    (hI : I = pre ++ ws ++ (ds ++ rest)) (hP : P = pre.length)
    (hne : ds ≠ [])
    (hds : ∀ c ∈ ds, isGoDigit c) (hws : ∀ c ∈ ws, isGoSpace c)
    (hrest : ¬ isGoDigit (rest.headD '\x00')) (ln col : Nat) :
    ∃ A B C D,
      Lexer.NextToken ⟨I, P, ln, col⟩ =
        .ok (⟨.NUMBER, String.mk ds, A, B⟩,
          ⟨I, P + ws.length + ds.length, C, D⟩) := by
  subst hI hP
  obtain ⟨d0, dt, rfl⟩ : ∃ d0 dt, ds = d0 :: dt := by
    cases ds with
    | nil => exact absurd rfl hne
    | cons d0 dt => exact ⟨d0, dt, rfl⟩
  have hd0 := hds d0 (by simp)
  have hprops := isGoDigit_props hd0
  have hns : ¬ isGoSpace (((d0 :: dt) ++ rest).headD '\x00') := by
    show ¬ isGoSpace d0
    exact hprops.1
  obtain ⟨A, B, hskip⟩ := skipWS_run ws pre ((d0 :: dt) ++ rest) ln col
    ((pre ++ ws ++ ((d0 :: dt) ++ rest)).length + 1) hws hns (by simp; omega)
  have hcur : (⟨pre ++ ws ++ ((d0 :: dt) ++ rest),
      pre.length + ws.length, A, B⟩ : Lexer).currentChar = d0 := by
    show (pre ++ ws ++ ((d0 :: dt) ++ rest)).getD
      (pre.length + ws.length) '\x00' = d0
    have h := getD_append_off (pre ++ ws) ((d0 :: dt) ++ rest) '\x00' 0
    rw [Nat.add_zero] at h
    rw [show pre.length + ws.length = (pre ++ ws).length from by simp, h]
    rfl
  obtain ⟨C, D, hread⟩ := readNumber_run (d0 :: dt) (pre ++ ws) rest hds hrest A B
  rw [List.append_assoc] at hread
  rw [show (pre ++ ws).length = pre.length + ws.length from by simp] at hread
  refine ⟨A, B, C, D, ?_⟩
  simp only [Lexer.NextToken, Lexer.skipWhitespace]
  rw [hskip, hcur]
  rw [if_neg hprops.2.2.1, if_neg hprops.2.2.2.1, if_neg hprops.2.2.2.2.1,
    if_neg hprops.2.1, if_pos hd0, hread]

/-- One operator-then-literal segment of an additive source: whitespace,
the operator character, whitespace, a digit run. -/
structure OpNum where
  ws1 : List Char
  op : Char
  ws2 : List Char
  digits : List Char
deriving DecidableEq, Repr

/-- The characters of a segment. -/
def renderSeg (g : OpNum) : List Char :=
  g.ws1 ++ g.op :: (g.ws2 ++ g.digits)

/-- Well-formedness of a segment: whitespace is whitespace, the operator
is `+` or `-`, the digit run is nonempty and all digits. -/
def segOK (g : OpNum) : Prop :=
  (∀ c ∈ g.ws1, isGoSpace c) ∧ (g.op = '+' ∨ g.op = '-') ∧
    (∀ c ∈ g.ws2, isGoSpace c) ∧ g.digits ≠ [] ∧ ∀ c ∈ g.digits, isGoDigit c

instance (g : OpNum) : Decidable (segOK g) := by unfold segOK; infer_instance

/-- After a digit run, what follows (next segment, trailing whitespace, or
end of input) never starts with another digit, so the greedy number scan
stops exactly at the run's end. -/
theorem flat_head_not_digit (segs : List OpNum) (wsF : List Char)
    (hok : ∀ g ∈ segs, segOK g) (hwsF : ∀ c ∈ wsF, isGoSpace c) :
    ¬ isGoDigit (((segs.map renderSeg).flatten ++ wsF).headD '\x00') := by
  cases segs with
  | nil =>
    cases wsF with
    | nil =>
      simp
      decide
    | cons c wsF' =>
      have hsp := isGoSpace_props (hwsF c (by simp))
      simp
      exact hsp.1
  | cons g segs' =>
    have hg := hok g (by simp)
    rcases hws1 : g.ws1 with _ | ⟨c, ws1'⟩
    · rcases hg.2.1 with h | h <;> simp [renderSeg, hws1, h] <;> decide
    · have hsp := isGoSpace_props (hg.1 c (by rw [hws1]; simp))
      simp [renderSeg, hws1]
      exact hsp.1

/-- Each segment renders to at least two characters (the operator and at
least one digit). -/
theorem flat_length_ge (segs : List OpNum) (hok : ∀ g ∈ segs, segOK g) :
    2 * segs.length ≤ ((segs.map renderSeg).flatten).length := by
  induction segs with
  | nil => simp
  | cons g segs' ih =>
    have hg := hok g (by simp)
    have hd : 1 ≤ g.digits.length := by
      cases hds : g.digits with
      | nil => exact absurd hds hg.2.2.2.1
      | cons x xs => simp
    have h2 := ih (fun g' h' => hok g' (by simp [h']))
    simp only [List.map_cons, List.flatten_cons, List.length_append,
      List.length_cons, renderSeg]
    omega

/-- Tokenizing the tail of an additive source from a segment boundary:
each segment yields its operator token then its NUMBER token, and the run
ends with the EOF marker. -/
theorem lexAll_segs (segs : List OpNum) :
    ∀ (pre wsF I : List Char) (ln col P fuel : Nat),
      I = pre ++ (segs.map renderSeg).flatten ++ wsF →
      P = pre.length →
      (∀ g ∈ segs, segOK g) → (∀ c ∈ wsF, isGoSpace c) →
      2 * segs.length + 1 ≤ fuel →
      ∃ ts : List Token,
        lexAllF fuel ⟨I, P, ln, col⟩ = .ok ts ∧
        ts.map tokProj =
          segs.flatMap (fun g => [(opType g.op, opStr g.op),
            (.NUMBER, String.mk g.digits)]) ++ [(.EOF, "")] := by
  induction segs with
  | nil =>
    intro pre wsF I ln col P fuel hI hP hok hwsF hfuel
    obtain ⟨f, rfl⟩ : ∃ f, fuel = f + 1 := ⟨fuel - 1, by omega⟩
    obtain ⟨A, B, htok⟩ := nextToken_trailingWS pre wsF I P
      (by rw [hI]; simp) hP hwsF ln col
    refine ⟨[⟨.EOF, "", A, B⟩], ?_, ?_⟩
    · rw [lexAllF, htok]
      simp
    · simp [tokProj]
  | cons g segs' ih =>
    intro pre wsF I ln col P fuel hI hP hok hwsF hfuel
    simp only [List.length_cons] at hfuel
    obtain ⟨f2, rfl⟩ : ∃ f2, fuel = f2 + 1 + 1 := ⟨fuel - 2, by omega⟩
    have hg := hok g (by simp)
    obtain ⟨A1, B1, C1, D1, htok1⟩ := nextToken_op g.op hg.2.1 pre g.ws1
      (g.ws2 ++ (g.digits ++ ((segs'.map renderSeg).flatten ++ wsF))) I P
      (by rw [hI]; simp [renderSeg]) hP hg.1 ln col
    obtain ⟨A2, B2, C2, D2, htok2⟩ := nextToken_number g.digits
      (pre ++ g.ws1 ++ [g.op]) g.ws2 ((segs'.map renderSeg).flatten ++ wsF)
      I (P + g.ws1.length + 1)
      (by rw [hI]; simp [renderSeg])
      (by rw [hP]; simp <;> omega)
      hg.2.2.2.1 hg.2.2.2.2 hg.2.2.1
      (flat_head_not_digit segs' wsF (fun g' h' => hok g' (by simp [h'])) hwsF)
      C1 D1
    obtain ⟨ts', hts', hproj'⟩ := ih (pre ++ renderSeg g) wsF I C2 D2
      (P + g.ws1.length + 1 + g.ws2.length + g.digits.length) f2
      (by rw [hI]; simp [renderSeg])
      (by rw [hP]; simp [renderSeg] <;> omega)
      (fun g' h' => hok g' (by simp [h'])) hwsF (by omega)
    have hne1 : ¬ (opType g.op = TokenType.EOF) := by
      rcases hg.2.1 with h | h <;> simp [opType, h]
    have hstep2 : lexAllF (f2 + 1) ⟨I, P + g.ws1.length + 1, C1, D1⟩ =
        .ok (⟨.NUMBER, String.mk g.digits, A2, B2⟩ :: ts') := by
      rw [lexAllF, htok2]
      simp [hts']
    refine ⟨⟨opType g.op, opStr g.op, A1, B1⟩ ::
      ⟨.NUMBER, String.mk g.digits, A2, B2⟩ :: ts', ?_, ?_⟩
    · rw [lexAllF, htok1]
      simp [hne1, hstep2]
    · simp only [List.map_cons, List.flatMap_cons, tokProj]
      rw [hproj']
      simp

/-- The characters of a whole additive source: leading whitespace, a first
digit run, the segments, trailing whitespace. -/
def renderSrc (ws0 d0 : List Char) (segs : List OpNum) (wsF : List Char) :
    List Char :=
  ws0 ++ (d0 ++ ((segs.map renderSeg).flatten ++ wsF))

/-- Tokenizing a whole additive source: a NUMBER token for the first digit
run, then an operator and a NUMBER token per segment, then the EOF
marker. -/
theorem lexAll_src (ws0 d0 : List Char) (segs : List OpNum) (wsF : List Char)
    (hws0 : ∀ c ∈ ws0, isGoSpace c) (hd0ne : d0 ≠ [])
    (hd0 : ∀ c ∈ d0, isGoDigit c)
    (hsegs : ∀ g ∈ segs, segOK g) (hwsF : ∀ c ∈ wsF, isGoSpace c) :
    ∃ ts, lexAll (Lexer.new (String.mk (renderSrc ws0 d0 segs wsF))) =
        .ok ts ∧
      ts.map tokProj = (.NUMBER, String.mk d0) ::
        (segs.flatMap (fun g => [(opType g.op, opStr g.op),
          (.NUMBER, String.mk g.digits)]) ++ [(.EOF, "")]) := by
  obtain ⟨A, B, C, D, htok⟩ := nextToken_number d0 [] ws0
    ((segs.map renderSeg).flatten ++ wsF) (renderSrc ws0 d0 segs wsF) 0
    (by simp [renderSrc]) (by simp)
    hd0ne hd0 hws0 (flat_head_not_digit segs wsF hsegs hwsF) 1 1
  have hlen : 2 * segs.length + 1 ≤ (renderSrc ws0 d0 segs wsF).length := by
    have hfl := flat_length_ge segs hsegs
    have hd1 : 1 ≤ d0.length := by
      cases hds : d0 with
      | nil => exact absurd hds hd0ne
      | cons x xs => simp
    simp only [renderSrc, List.length_append]
    omega
  obtain ⟨ts', hts', hproj'⟩ := lexAll_segs segs (ws0 ++ d0) wsF
    (renderSrc ws0 d0 segs wsF) C D (ws0.length + d0.length)
    ((renderSrc ws0 d0 segs wsF).length)
    (by simp [renderSrc]) (by simp <;> omega) hsegs hwsF hlen
  refine ⟨⟨.NUMBER, String.mk d0, A, B⟩ :: ts', ?_, ?_⟩
  · have hnew : Lexer.new (String.mk (renderSrc ws0 d0 segs wsF)) =
        ⟨renderSrc ws0 d0 segs wsF, 0, 1, 1⟩ := rfl
    unfold lexAll
    rw [hnew]
    have hfe : (⟨renderSrc ws0 d0 segs wsF, 0, 1, 1⟩ :
        Lexer).input.length + 1 = (renderSrc ws0 d0 segs wsF).length + 1 := rfl
    rw [hfe]
    rw [lexAllF, htok]
    simp [hts']
  · simp [tokProj, hproj']

/-- Extending a left-nested chain from an arbitrary left node (the
accumulator form of `chainT`). -/
def chainExt (left : Node)
    (qs : List ((Token × String) × (Token × Int))) : Node :=
  qs.foldl (fun acc q => .infx q.1.1 acc q.1.2 (.intLit q.2.1 q.2.2)) left

theorem chainExt_cons (left : Node) (q : (Token × String) × (Token × Int))
    (qs : List ((Token × String) × (Token × Int))) :
    chainExt left (q :: qs) =
      chainExt (.infx q.1.1 left q.1.2 (.intLit q.2.1 q.2.2)) qs := rfl

theorem chainT_eq_chainExt (t0 : Token) (v0 : Int)
    (ps : List ((Token × String) × (Token × Int))) :
    chainT t0 v0 ps = chainExt (.intLit t0 v0) ps := rfl

/-- The combination loop on a well-formed operator/literal token stream:
it folds every pair into the left operand, leaves the errors untouched,
and the collected operators and literal values project back to the
stream. -/
theorem parseLoop_pairs (pairs : List (Char × String)) :
    ∀ (p : Parser) (left : Node) (fuel : Nat),
      (p.peekToken :: p.rest).map tokProj =
        pairs.flatMap (fun q => [(opType q.1, opStr q.1), (.NUMBER, q.2)]) ++
          [(.EOF, "")] →
      (∀ q ∈ pairs, q.1 = '+' ∨ q.1 = '-') →
      (∀ q ∈ pairs, (goParseIntStr q.2).isSome) →
      pairs.length + 1 ≤ fuel →
      ∃ qs p2,
        parseExprLoopF fuel left p = (chainExt left qs, p2) ∧
        p2.errors = p.errors ∧
        qs.map (fun q => q.1.2) = pairs.map (fun q => opStr q.1) ∧
        qs.map (fun q => q.2.2) =
          pairs.map (fun q => (goParseIntStr q.2).getD 0) := by
  induction pairs with
  | nil =>
    intro p left fuel hstream hops hvals hfuel
    obtain ⟨f, rfl⟩ : ∃ f, fuel = f + 1 := ⟨fuel - 1, by omega⟩
    simp only [List.flatMap_nil, List.nil_append, List.map_cons] at hstream
    injection hstream with h1 h2
    have htyp : p.peekToken.typ = TokenType.EOF := congrArg Prod.fst h1
    rw [parseExprLoopF, if_neg (by rw [htyp]; decide)]
    exact ⟨[], p, rfl, rfl, rfl, rfl⟩
  | cons q pairs' ih =>
    intro p left fuel hstream hops hvals hfuel
    obtain ⟨f, rfl⟩ : ∃ f, fuel = f + 1 := ⟨fuel - 1, by omega⟩
    simp only [List.flatMap_cons, List.map_cons, List.cons_append,
      List.append_assoc, List.nil_append] at hstream
    injection hstream with h1 hrest1
    cases hr : p.rest with
    | nil =>
      rw [hr] at hrest1
      simp at hrest1
    | cons t1 rest2 =>
      rw [hr] at hrest1
      simp only [List.map_cons] at hrest1
      injection hrest1 with h2 hrest2
      have hop := hops q (by simp)
      have htyp1 : p.peekToken.typ = opType q.1 := congrArg Prod.fst h1
      have hval1 : p.peekToken.value = opStr q.1 := congrArg Prod.snd h1
      have hval2 : t1.value = q.2 := congrArg Prod.snd h2
      have hcond : p.peekToken.typ = .PLUS ∨ p.peekToken.typ = .MINUS := by
        rcases hop with h | h
        · left
          rw [htyp1, h]
          rfl
        · right
          rw [htyp1, h]
          rfl
      obtain ⟨v, hv⟩ := Option.isSome_iff_exists.mp (hvals q (by simp))
      have hvt : goParseIntStr t1.value = some v := by rw [hval2]; exact hv
      have hbody : Parser.parseInfixExpression (p.nextToken) left =
          (.infx p.peekToken left (opStr q.1) (.intLit t1 v),
            ⟨p.errors, t1, rest2.headD eofToken, rest2.tail⟩) := by
        simp only [Parser.nextToken, Parser.parseInfixExpression,
          Parser.parseIntegerLiteral, hr, List.headD_cons, List.tail_cons,
          hvt, hval1]
      rw [parseExprLoopF, if_pos hcond]
      simp only [hbody]
      cases hr2 : rest2 with
      | nil =>
        rw [hr2] at hrest2
        simp at hrest2
      | cons r0 rr =>
        rw [hr2] at hrest2
        simp only [List.headD_cons, List.tail_cons]
        obtain ⟨qs', p2, hloop, herr, hproj1, hproj2⟩ := ih
          ⟨p.errors, t1, r0, rr⟩
          (.infx p.peekToken left (opStr q.1) (.intLit t1 v)) f
          hrest2
          (fun q' hq' => hops q' (by simp [hq']))
          (fun q' hq' => hvals q' (by simp [hq']))
          (by simp only [List.length_cons] at hfuel; omega)
        refine ⟨((p.peekToken, opStr q.1), (t1, v)) :: qs', p2, ?_, ?_, ?_, ?_⟩
        · rw [chainExt_cons]
          exact hloop
        · exact herr
        · simp [hproj1]
        · simp [hproj2, hv]

/-- `ParseProgram` on a well-formed additive token stream: no errors, and
the tree is the left-nested chain of the stream's literals. -/
theorem parseProgram_stream (ts : List Token) (s0 : String)
    (pairs : List (Char × String))
    (hstream : ts.map tokProj = (.NUMBER, s0) ::
      (pairs.flatMap (fun q => [(opType q.1, opStr q.1), (.NUMBER, q.2)]) ++
        [(.EOF, "")]))
    (hops : ∀ q ∈ pairs, q.1 = '+' ∨ q.1 = '-')
    (hvals : ∀ q ∈ pairs, (goParseIntStr q.2).isSome)
    (hv0 : (goParseIntStr s0).isSome) :
    ∃ (t0 : Token) (qs : List ((Token × String) × (Token × Int)))
      (p2 : Parser),
      (Parser.new ts).ParseProgram =
        (.program (chainT t0 ((goParseIntStr s0).getD 0) qs), p2) ∧
      p2.errors = [] ∧
      qs.map (fun q => q.1.2) = pairs.map (fun q => opStr q.1) ∧
      qs.map (fun q => q.2.2) =
        pairs.map (fun q => (goParseIntStr q.2).getD 0) := by
  obtain ⟨t0, ts1, rfl⟩ : ∃ t0 ts1, ts = t0 :: ts1 := by
    cases ts with
    | nil => simp at hstream
    | cons a b => exact ⟨a, b, rfl⟩
  simp only [List.map_cons] at hstream
  injection hstream with h0 hrest0
  obtain ⟨t1, ts2, rfl⟩ : ∃ t1 ts2, ts1 = t1 :: ts2 := by
    cases ts1 with
    | nil => simp at hrest0
    | cons a b => exact ⟨a, b, rfl⟩
  simp only [List.map_cons] at hrest0
  have hval0 : t0.value = s0 := congrArg Prod.snd h0
  obtain ⟨v0, hv0'⟩ := Option.isSome_iff_exists.mp hv0
  have hflat_len : ∀ (ps : List (Char × String)),
      (ps.flatMap (fun q => [(opType q.1, opStr q.1),
        ((TokenType.NUMBER : TokenType), q.2)])).length = 2 * ps.length := by
    intro ps
    induction ps with
    | nil => rfl
    | cons a l ihh =>
      simp only [List.flatMap_cons, List.length_append, List.length_cons,
        List.length_nil, ihh, List.length_cons]
      omega
  have hfuel : pairs.length + 1 ≤ ts2.length + 2 := by
    have hlen := congrArg List.length hrest0
    simp only [List.length_cons, List.length_append, List.length_map,
      hflat_len, List.length_nil] at hlen
    omega
  have hlit : (⟨[], t0, t1, ts2⟩ : Parser).parseIntegerLiteral =
      (.intLit t0 v0, ⟨[], t0, t1, ts2⟩) := by
    simp only [Parser.parseIntegerLiteral, hval0, hv0']
  obtain ⟨qs, p2, hloop, herr, hq1, hq2⟩ := parseLoop_pairs pairs
    ⟨[], t0, t1, ts2⟩ (.intLit t0 v0) (ts2.length + 2)
    hrest0 hops hvals hfuel
  refine ⟨t0, qs, p2, ?_, herr, hq1, hq2⟩
  show (Parser.new (t0 :: t1 :: ts2)).ParseProgram = _
  have hnew : Parser.new (t0 :: t1 :: ts2) = ⟨[], t0, t1, ts2⟩ := rfl
  rw [hnew]
  simp only [Parser.ParseProgram, Parser.parseExpression, hlit]
  rw [hloop, chainT_eq_chainExt, hv0']
  simp only [Option.getD_some]

/-- Strict left-to-right evaluation of a literal sequence under the VM's
64-bit wraparound add/subtract: the reference value for C1. -/
def leftToRight (acc : Int) : List (Char × Int) → Int
  | [] => acc
  | q :: rest =>
    leftToRight (if q.1 = '+' then i64add acc q.2 else i64sub acc q.2) rest

/-- The VM's chain fold computes exactly the left-to-right evaluation when
the per-step values come from the literal sequence. -/
theorem foldOpsW_leftToRight (pairs : List (Char × Int)) :
    ∀ (w : Nat → Int) (acc : Int),
      (∀ q ∈ pairs, q.1 = '+' ∨ q.1 = '-') →
      (∀ i, i < pairs.length → w i = (pairs.map Prod.snd).getD i 0) →
      foldOpsW w acc (pairs.map (fun q => opStr q.1)) =
        leftToRight acc pairs := by
  induction pairs with
  | nil =>
    intro w acc _ _
    rfl
  | cons q rest ih =>
    intro w acc hops hw
    have hw0 : w 0 = q.2 := by
      have h := hw 0 (by simp)
      simpa using h
    simp only [List.map_cons]
    rw [foldOpsW, leftToRight]
    rcases hops q (by simp) with h | h
    · rw [if_pos (show opStr q.1 = "+" from by rw [h]; rfl),
        if_pos h, hw0]
      apply ih
      · intro q' hq'
        exact hops q' (by simp [hq'])
      · intro i hi
        have hh := hw (i + 1) (by simp; omega)
        simpa using hh
    · rw [if_neg (show ¬ (opStr q.1 = "+") from by rw [h]; decide),
        if_neg (show ¬ (q.1 = '+') from by rw [h]; decide), hw0]
      apply ih
      · intro q' hq'
        exact hops q' (by simp [hq'])
      · intro i hi
        have hh := hw (i + 1) (by simp; omega)
        simpa using hh

/-- **C1** counterexample: `"017"` is a source made only of decimal digit
characters, yet the pipeline evaluates it to 15 (`ParseInt` with base 0
reads the leading-zero literal as octal), not to its decimal value 17. -/
theorem decimal_literal_read_as_octal :
    pipeline "017" = .ok (.int 15) ∧
      (∀ c ∈ ("017" : String).data, isGoDigit c) ∧ (15 : Int) ≠ 17 := by
  refine ⟨by decide, by decide, by decide⟩

/-- **C1**, amended.  For every source of canonically written decimal
literals (no leading zero unless the literal is exactly `0`), each of
value below `2^63`, separated by `+`/`-` operators and whitespace, with
fewer than 65536 combination steps, the full pipeline (tokenize, parse,
compile, run) succeeds and the final stack top is the strict left-to-right
evaluation of the literal sequence (under the VM's 64-bit wraparound
arithmetic, which agrees with exact integer arithmetic whenever no
intermediate result leaves the signed 64-bit range).  As written the
spec's claim is false — see `decimal_literal_read_as_octal`: a literal
with a leading zero is read as octal by `ParseInt(v, 0, 64)`. -/
theorem pipeline_leftToRight (ws0 d0 : List Char) (segs : List OpNum)
    (wsF : List Char)
    (hws0 : ∀ c ∈ ws0, isGoSpace c)
    (hd0ne : d0 ≠ []) (hd0 : ∀ c ∈ d0, isGoDigit c)
    (hd0c : d0 = ['0'] ∨ d0.headD '0' ≠ '0')
    (hd0b : digitsVal d0 < 2 ^ 63)
    (hsegs : ∀ g ∈ segs, segOK g)
    (hcanon : ∀ g ∈ segs, g.digits = ['0'] ∨ g.digits.headD '0' ≠ '0')
    (hbounds : ∀ g ∈ segs, digitsVal g.digits < 2 ^ 63)
    (hcount : segs.length < 65536)
    (hwsF : ∀ c ∈ wsF, isGoSpace c) :
    pipeline (String.mk (renderSrc ws0 d0 segs wsF)) =
      .ok (.int (leftToRight (digitsVal d0 : Int)
        (segs.map (fun g => (g.op, (digitsVal g.digits : Int)))))) := by
  obtain ⟨ts, hlex, hproj⟩ := lexAll_src ws0 d0 segs wsF hws0 hd0ne hd0
    hsegs hwsF
  have hgd0 : goParseIntStr (String.mk d0) = some (digitsVal d0 : Int) :=
    goParseIntStr_canonical d0 hd0ne hd0 hd0c hd0b
  have hgdg : ∀ g ∈ segs, goParseIntStr (String.mk g.digits) =
      some (digitsVal g.digits : Int) := by
    intro g hgmem
    exact goParseIntStr_canonical g.digits (hsegs g hgmem).2.2.2.1
      (hsegs g hgmem).2.2.2.2 (hcanon g hgmem) (hbounds g hgmem)
  obtain ⟨t0, qs, p2, hparse, herr, hq1, hq2⟩ := parseProgram_stream ts
    (String.mk d0) (segs.map (fun g => (g.op, String.mk g.digits)))
    (by rw [hproj]; simp [List.flatMap_map])
    (by intro q hq
        obtain ⟨g, hgmem, rfl⟩ := List.mem_map.mp hq
        exact (hsegs g hgmem).2.1)
    (by intro q hq
        obtain ⟨g, hgmem, rfl⟩ := List.mem_map.mp hq
        simp [hgdg g hgmem])
    (by rw [hgd0]; rfl)
  have hgd : (goParseIntStr (String.mk d0)).getD 0 = (digitsVal d0 : Int) := by
    rw [hgd0]
    rfl
  rw [hgd] at hparse
  have hopsseq : qs.map (fun q => q.1.2) = segs.map (fun g => opStr g.op) := by
    rw [hq1, List.map_map]
    rfl
  have hvalseq : qs.map (fun q => q.2.2) =
      segs.map (fun g => (digitsVal g.digits : Int)) := by
    rw [hq2, List.map_map]
    apply List.map_congr_left
    intro g hgmem
    show (goParseIntStr (String.mk g.digits)).getD 0 = _
    rw [hgdg g hgmem]
    rfl
  have hqlen : qs.length = segs.length := by
    have h := congrArg List.length hvalseq
    simpa using h
  have hops' : ∀ o ∈ qs.map (fun q => q.1.2), o = "+" ∨ o = "-" := by
    intro o ho
    rw [hopsseq] at ho
    obtain ⟨g, hgmem, rfl⟩ := List.mem_map.mp ho
    rcases (hsegs g hgmem).2.1 with h | h <;> simp [opStr, h]
  have hcomp : Compiler.new.compile
      (.program (chainT t0 (digitsVal d0 : Int) qs)) =
      .ok ⟨segOf 0 (.program (chainT t0 (digitsVal d0 : Int) qs)),
        litVals (.program (chainT t0 (digitsVal d0 : Int) qs))⟩ := by
    have h := compile_seg (.program (chainT t0 (digitsVal d0 : Int) qs))
      Compiler.new
    simpa [Compiler.new] using h
  have hins : segOf 0 (.program (chainT t0 (digitsVal d0 : Int) qs)) =
      OpConstant :: 0 :: 0 :: chainSeg 1 (qs.map (fun q => q.1.2)) := by
    rw [segOf_program, segOf_chainT]
  have hcons : litVals (.program (chainT t0 (digitsVal d0 : Int) qs)) =
      ((digitsVal d0 : Int) :: qs.map (fun q => q.2.2)).map GoVal.int := by
    rw [litVals_program, litVals_chainT]
    simp [List.map_map]
  have hclen : (litVals (.program
      (chainT t0 (digitsVal d0 : Int) qs))).length = 1 + qs.length := by
    rw [litVals_length, numLits_program, numLits_chainT]
  have hIlen : (segOf 0 (.program
      (chainT t0 (digitsVal d0 : Int) qs))).length = 3 + 4 * qs.length := by
    rw [hins]
    simp [chainSeg_length _ hops']
    omega
  set bc : Bytecode := ⟨segOf 0 (.program (chainT t0 (digitsVal d0 : Int) qs)),
    litVals (.program (chainT t0 (digitsVal d0 : Int) qs))⟩ with hbc
  have hdrop0 : bc.instructions.drop 0 =
      OpConstant :: 0 :: 0 :: chainSeg 1 (qs.map (fun q => q.1.2)) := by
    rw [List.drop_zero, hbc]
    exact hins
  have hidx0 : (0 : Nat) * 256 + 0 < bc.constants.length := by
    show 0 * 256 + 0 <
      (litVals (.program (chainT t0 (digitsVal d0 : Int) qs))).length
    rw [hclen]
    omega
  have hsp0 : ¬ StackSize ≤ 0 := by decide
  have hv0c : bc.constants.getD (0 * 256 + 0) GoVal.nil =
      GoVal.int (digitsVal d0 : Int) := by
    show (litVals (.program (chainT t0 (digitsVal d0 : Int) qs))).getD
      (0 * 256 + 0) GoVal.nil = _
    rw [hcons]
    rw [show (0 : Nat) * 256 + 0 = 0 from by omega]
    rfl
  have hchain := runAux_chain (qs.map (fun q => q.1.2))
    (fun i => (qs.map (fun q => q.2.2)).getD i 0)
    bc [OpConstant, 0, 0]
    ((List.replicate StackSize GoVal.nil).set 0
      (GoVal.int (digitsVal d0 : Int)))
    1 (bc.instructions.length) (digitsVal d0 : Int)
    (by rw [hbc]
        exact hins)
    hops'
    (by intro i hi
        simp only [List.length_map] at hi
        have hmodeq : (1 + i) % 65536 = 1 + i :=
          Nat.mod_eq_of_lt (by omega)
        constructor
        · show (1 + i) % 65536 <
            (litVals (.program (chainT t0 (digitsVal d0 : Int) qs))).length
          rw [hclen, hmodeq]
          omega
        · show (litVals (.program (chainT t0 (digitsVal d0 : Int) qs))).getD
            ((1 + i) % 65536) GoVal.nil = _
          rw [hcons, hmodeq]
          rw [show (1 + i) = i + 1 from by omega]
          rw [show (((digitsVal d0 : Int) :: qs.map (fun q => q.2.2)).map
              GoVal.int) = GoVal.int (digitsVal d0 : Int) ::
                ((qs.map (fun q => q.2.2)).map GoVal.int) from rfl]
          rw [List.getD_cons_succ]
          exact getD_map_int _ _ (by rw [List.length_map]; exact hi))
    (by simp)
    (by apply getD_set_self
        simp)
    (by rw [hbc]
        show 2 * (qs.map (fun q => q.1.2)).length + 1 ≤ _
        rw [hIlen]
        simp
        omega)
  obtain ⟨st', hrun, hlen', hbot'⟩ := hchain
  rw [show ([OpConstant, 0, 0] : List Nat).length = 3 from rfl] at hrun
  have hload := @runAuxF_load (bc.instructions.length) bc
    (List.replicate StackSize GoVal.nil) 0 0 0 0
    (chainSeg 1 (qs.map (fun q => q.1.2))) hdrop0 hidx0 hsp0
  rw [hv0c] at hload
  simp only [Nat.zero_add] at hload
  have hRun : VM.Run (VM.new bc) = .ok ⟨bc, st', 1⟩ := by
    show (RunAuxF (bc.instructions.length + 1)
      ⟨bc, List.replicate StackSize GoVal.nil, 0⟩ 0).1 = _
    rw [hload, hrun]
  have hfold : foldOpsW (fun i => (qs.map (fun q => q.2.2)).getD i 0)
      (digitsVal d0 : Int) (qs.map (fun q => q.1.2)) =
      leftToRight (digitsVal d0 : Int)
        (segs.map (fun g => (g.op, (digitsVal g.digits : Int)))) := by
    rw [hopsseq]
    rw [show segs.map (fun g => opStr g.op) =
        (segs.map (fun g => (g.op, (digitsVal g.digits : Int)))).map
          (fun q => opStr q.1) from by rw [List.map_map]; rfl]
    apply foldOpsW_leftToRight
    · intro q hq
      obtain ⟨g, hgmem, rfl⟩ := List.mem_map.mp hq
      exact (hsegs g hgmem).2.1
    · intro i hi
      rw [hvalseq]
      rw [show (segs.map (fun g => (g.op, (digitsVal g.digits : Int)))).map
          Prod.snd = segs.map (fun g => (digitsVal g.digits : Int)) from by
        rw [List.map_map]; rfl]
  rw [hfold] at hbot'
  unfold pipeline
  rw [hlex]
  simp only []
  rw [hparse]
  simp only [herr]
  rw [if_neg (by decide)]
  rw [hcomp]
  simp only []
  have hbyte : Compiler.bytecode
      ⟨segOf 0 (.program (chainT t0 (digitsVal d0 : Int) qs)),
        litVals (.program (chainT t0 (digitsVal d0 : Int) qs))⟩ = bc := by
    rw [hbc]
    rfl
  rw [hbyte, hRun]
  simp only []
  rw [show VM.StackTop ⟨bc, st', 1⟩ = st'.getD 0 GoVal.nil from by
    simp [VM.StackTop]]
  rw [hbot']

/-- Witness for the amended C1 at the spec's own example, `"12 + 7 - 5"`:
every hypothesis holds by computation and the theorem applies. -/
theorem pipeline_leftToRight_witness :
    (∀ c ∈ ([] : List Char), isGoSpace c) ∧
    (['1', '2'] : List Char) ≠ [] ∧
    (∀ c ∈ (['1', '2'] : List Char), isGoDigit c) ∧
    ((['1', '2'] : List Char) = ['0'] ∨
      (['1', '2'] : List Char).headD '0' ≠ '0') ∧
    digitsVal ['1', '2'] < 2 ^ 63 ∧
    (∀ g ∈ ([⟨[' '], '+', [' '], ['7']⟩,
      ⟨[' '], '-', [' '], ['5']⟩] : List OpNum), segOK g) ∧
    (∀ g ∈ ([⟨[' '], '+', [' '], ['7']⟩,
      ⟨[' '], '-', [' '], ['5']⟩] : List OpNum),
      g.digits = ['0'] ∨ g.digits.headD '0' ≠ '0') ∧
    (∀ g ∈ ([⟨[' '], '+', [' '], ['7']⟩,
      ⟨[' '], '-', [' '], ['5']⟩] : List OpNum),
      digitsVal g.digits < 2 ^ 63) ∧
    ([⟨[' '], '+', [' '], ['7']⟩,
      ⟨[' '], '-', [' '], ['5']⟩] : List OpNum).length < 65536 ∧
    pipeline (String.mk (renderSrc [] ['1', '2']
        [⟨[' '], '+', [' '], ['7']⟩, ⟨[' '], '-', [' '], ['5']⟩] [])) =
      .ok (.int (leftToRight (digitsVal ['1', '2'] : Int)
        (([⟨[' '], '+', [' '], ['7']⟩,
          ⟨[' '], '-', [' '], ['5']⟩] : List OpNum).map
            (fun g => (g.op, (digitsVal g.digits : Int)))))) :=
  ⟨by decide, by decide, by decide, by decide, by decide, by decide,
    by decide, by decide, by decide,
    pipeline_leftToRight [] ['1', '2']
      [⟨[' '], '+', [' '], ['7']⟩, ⟨[' '], '-', [' '], ['5']⟩] []
      (by decide) (by decide) (by decide) (by decide) (by decide)
      (by decide) (by decide) (by decide) (by decide) (by decide)⟩

end Butterfly
